import Mathlib

/-!
Verification of the AWS icon toolkit (rename.js, svg-title.js, restructure.js).

Strings are embedded as `List Char`.  Each definition mirrors one function of
the source; regular-expression substitutions are embedded as explicit
left-to-right scanners with the same matching discipline as the JS engine
(first alternative wins, global replacement resumes after the match).
-/

/-- Separator class of the filename rules: the regex class `[-_]`. -/
def sepB (c : Char) : Bool := c == '-' || c == '_'

/-- Case-insensitive match of one pattern char (given lowercase) against a char,
mirroring the `/i` regex flag for ASCII. -/
def mchCI (a c : Char) : Bool := c.toLower == a

/-- `startsWithCI pat s`: `s` starts with `pat` case-insensitively
(`pat` is given in lowercase). -/
def startsWithCI : List Char → List Char → Bool
  | [], _ => true
  | _ :: _, [] => false
  | a :: ps, c :: cs => mchCI a c && startsWithCI ps cs

/-- Case-insensitive substring test (spec-side "contains a token, any case"). -/
def containsCI (pat : List Char) : List Char → Bool
  | [] => pat.isEmpty
  | c :: cs => startsWithCI pat (c :: cs) || containsCI pat cs

/-- The two brand tokens of rename.js, lowercased: `Amazon`, `AWS`. -/
def amazonL : List Char := ['a', 'm', 'a', 'z', 'o', 'n']

def awsL : List Char := ['a', 'w', 's']

/-- A brand occurrence starts here (regex alternation order: Amazon first). -/
def isBrandAt (s : List Char) : Bool := startsWithCI amazonL s || startsWithCI awsL s

/-- The string contains a brand token (`/Amazon|AWS/i` would match). -/
def containsBrand : List Char → Bool
  | [] => false
  | c :: cs => isBrandAt (c :: cs) || containsBrand cs

/-! ### The leading-prefix rule of rename.js

`^(?:Arch[-_]Category[-_]|Arch[-_]|Res[-_])/i`, one non-global anchored
substitution; alternatives are tried in order. -/

/-- One item of an anchored pattern: a (lowercase) literal matched
case-insensitively, or the separator class `[-_]`. -/
inductive NPat where
  | lit : Char → NPat
  | sepc : NPat
deriving DecidableEq

/-- Match an anchored pattern, returning the rest of the string on success. -/
def matchPat : List NPat → List Char → Option (List Char)
  | [], s => some s
  | _ :: _, [] => none
  | NPat.lit a :: ps, c :: cs => if mchCI a c then matchPat ps cs else none
  | NPat.sepc :: ps, c :: cs => if sepB c then matchPat ps cs else none

def archCatPat : List NPat :=
  [NPat.lit 'a', NPat.lit 'r', NPat.lit 'c', NPat.lit 'h', NPat.sepc,
   NPat.lit 'c', NPat.lit 'a', NPat.lit 't', NPat.lit 'e', NPat.lit 'g',
   NPat.lit 'o', NPat.lit 'r', NPat.lit 'y', NPat.sepc]

def archPat : List NPat := [NPat.lit 'a', NPat.lit 'r', NPat.lit 'c', NPat.lit 'h', NPat.sepc]

def resPat : List NPat := [NPat.lit 'r', NPat.lit 'e', NPat.lit 's', NPat.sepc]

/-- Rule 1 of `cleanName`: strip one recognized leading prefix marker. -/
def stripLeadMarker (s : List Char) : List Char :=
  match matchPat archCatPat s with
  | some r => r
  | none =>
    match matchPat archPat s with
    | some r => r
    | none =>
      match matchPat resPat s with
      | some r => r
      | none => s

/-- Left-to-right scan of `replace(/Amazon|AWS/gi, "")`: at each position the
engine tries `Amazon` then `AWS` and resumes after a removed match.  The `Nat`
argument is recursion fuel; every step consumes at least one character, so any
fuel of at least the list length computes the full scan. -/
def stripBrandsF : Nat → List Char → List Char
  | 0, s => s
  | _ + 1, [] => []
  | n + 1, c :: cs =>
    if startsWithCI amazonL (c :: cs) then stripBrandsF n ((c :: cs).drop 6)
    else if startsWithCI awsL (c :: cs) then stripBrandsF n ((c :: cs).drop 3)
    else c :: stripBrandsF n cs

/-- Rule 2 of `cleanName`: `replace(/Amazon|AWS/gi, "")`. -/
def stripBrands (s : List Char) : List Char := stripBrandsF s.length s

/-- Rule 3 of `cleanName`: `replace(/_(?:48|32)$/i, "")`. -/
def stripSize (s : List Char) : List Char :=
  match s.reverse with
  | '8' :: '4' :: '_' :: t => t.reverse
  | '2' :: '3' :: '_' :: t => t.reverse
  | _ => s

/-- Generic run collapser: a maximal run of two or more `p`-chars becomes a
single `'_'`; a lone `p`-char is kept as is.  The `Bool` state is true while
skipping the tail of an already-replaced run. -/
def collapseAux (p : Char → Bool) : Bool → List Char → List Char
  | _, [] => []
  | true, c :: cs => if p c then collapseAux p true cs else c :: collapseAux p false cs
  | false, c :: cs =>
    if p c then
      match cs with
      | [] => [c]
      | d :: _ => if p d then '_' :: collapseAux p true cs else c :: collapseAux p false cs
    else c :: collapseAux p false cs

/-- Rule 4 of `cleanName`: `replace(/[-_]{2,}/g, "_")`. -/
def collapseSeps (s : List Char) : List Char := collapseAux sepB false s

/-- Drop the maximal trailing run of `p`-chars. -/
def dropTrailing (p : Char → Bool) (s : List Char) : List Char :=
  (s.reverse.dropWhile p).reverse

/-- Rule 5 of `cleanName` (also used by svg-title.js):
`replace(/^[-_]+|[-_]+$/g, "")`. -/
def trimSeps (s : List Char) : List Char := dropTrailing sepB (s.dropWhile sepB)

/-- Rules 1-5 applied to a base name, in the fixed source order. -/
def pipelineBase (b : List Char) : List Char :=
  trimSeps (collapseSeps (stripSize (stripBrands (stripLeadMarker b))))

/-- `path.extname` / `path.basename(name, ext)` on a single directory entry:
split at the last dot, except when there is no dot or the only split point is
the leading character (Node then reports an empty extension). -/
def splitExt (s : List Char) : List Char × List Char :=
  match s.reverse.drop ((s.reverse.takeWhile (fun c => c ≠ '.')).length) with
  | [] => (s, [])
  | ['.'] => (s, [])
  | '.' :: t => (t.reverse, '.' :: (s.reverse.takeWhile (fun c => c ≠ '.')).reverse)
  | _ => (s, [])

/-- `cleanName(name, isFile)` of rename.js, including the empty-result
fallback `if (!base) base = name` and the final re-attachment of the
extension for files. -/
def cleanName (name : List Char) (isFile : Bool) : List Char :=
  let pe := if isFile then splitExt name else (name, [])
  let b := pipelineBase pe.1
  let b2 := if b = [] then name else b
  if isFile then b2 ++ pe.2 else b2

/-! ### svg-title.js -/

/-- `s.split("/").pop()`: the segment after the last `'/'`. -/
def afterLastSlash (s : List Char) : List Char :=
  (s.reverse.takeWhile (fun c => c ≠ '/')).reverse

/-- `replace(/_\d+$/i, "")`: strip one `'_'` plus a nonempty trailing digit
run. -/
def stripNumSuffix (s : List Char) : List Char :=
  let r := s.reverse
  let ds := r.takeWhile Char.isDigit
  if ds = [] then s
  else
    match r.drop ds.length with
    | '_' :: t => t.reverse
    | _ => s

def archTitleL : List Char := ['a', 'r', 'c', 'h', '_']

def resTitleL : List Char := ['r', 'e', 's', '_']

/-- `replace(/^(?:Arch_|Res_)/i, "")` of cleanTitle. -/
def stripTitleMarker (s : List Char) : List Char :=
  if startsWithCI archTitleL s then s.drop 5
  else if startsWithCI resTitleL s then s.drop 4
  else s

/-- `cleanTitle(raw)` of svg-title.js: last path segment, title prefix strip,
numeric-size suffix strip, `__+` collapse, separator trim, with the
`return s || raw` fallback. -/
def cleanTitle (raw : List Char) : List Char :=
  let s0 := if raw.contains '/' then afterLastSlash raw else raw
  let s1 := stripTitleMarker s0
  let s2 := stripNumSuffix s1
  let s3 := collapseAux (fun c => c == '_') false s2
  let s4 := trimSeps s3
  if s4 = [] then raw else s4

/-! ### restructure.js: slugs, alias resolution -/

/-- Exact (case-sensitive) prefix test on char lists. -/
def startsL : List Char → List Char → Bool
  | [], _ => true
  | _ :: _, [] => false
  | a :: ps, c :: cs => a == c && startsL ps cs

/-- Exact substring test: JS `String.prototype.includes`. -/
def containsL (sub : List Char) : List Char → Bool
  | [] => sub.isEmpty
  | c :: cs => startsL sub (c :: cs) || containsL sub cs

/-- `slug`: lowercase, keep only `[a-z0-9]`. -/
def slugL (s : List Char) : List Char :=
  (s.map Char.toLower).filter (fun c => ('a' ≤ c && c ≤ 'z') || ('0' ≤ c && c ≤ '9'))

/-- Association maps (JS `Map` / plain object): first-match lookup. -/
def alookup (k : List Char) : List (List Char × List Char) → Option (List Char)
  | [] => none
  | p :: ps => if p.1 = k then some p.2 else alookup k ps

/-- `Map.set` / object property assignment: overwrite in place when the key is
present, append otherwise (JS string keys keep insertion order). -/
def mapSet (m : List (List Char × List Char)) (k v : List Char) :
    List (List Char × List Char) :=
  if (alookup k m).isSome then m.map (fun p => if p.1 = k then (k, v) else p)
  else m ++ [(k, v)]

/-- Build a category `Map`: keep entries starting with the taxonomy marker,
key them by the slug of the rest (`slug(e.name.slice(n))`). -/
def buildCats (pfx : List Char) (entries : List (List Char)) :
    List (List Char × List Char) :=
  entries.foldl
    (fun m e => if startsL pfx e then mapSet m (slugL (e.drop pfx.length)) e else m) []

def archMark : List Char := ['A', 'r', 'c', 'h', '_']

def resMark : List Char := ['R', 'e', 's', '_']

/-- The hand-curated manual override table of restructure.js. -/
def manualAlias : List (List Char × List Char) :=
  [("appintegration".toList, "applicationintegration".toList),
   ("iot".toList, "internetofthings".toList)]

/-- `autoAlias`: for each architecture slug with no resource slug, record the
first resource slug related by substring containment; the JS guard `if (hit)`
drops an empty-string hit (empty strings are falsy). -/
def autoAlias (archCats resCats : List (List Char × List Char)) :
    List (List Char × List Char) :=
  (archCats.map Prod.fst).foldl
    (fun acc k =>
      if (alookup k resCats).isSome then acc
      else
        match (resCats.map Prod.fst).find? (fun x => containsL k x || containsL x k) with
        | some hit => if hit = [] then acc else mapSet acc k hit
        | none => acc)
    []

/-- Object spread `{ ...a, ...b }`: entries of `b` overlaid on `a`. -/
def objSpread (a b : List (List Char × List Char)) : List (List Char × List Char) :=
  b.foldl (fun acc p => mapSet acc p.1 p.2) a

/-- The per-key step of the `autoAlias` loop. -/
def autoStep (resCats : List (List Char × List Char))
    (acc : List (List Char × List Char)) (k : List Char) :
    List (List Char × List Char) :=
  if (alookup k resCats).isSome then acc
  else
    match (resCats.map Prod.fst).find? (fun x => containsL k x || containsL x k) with
    | some hit => if hit = [] then acc else mapSet acc k hit
    | none => acc

/-- `const alias = { ...autoAlias, ...manualAlias }`. -/
def aliasMap (archCats resCats : List (List Char × List Char)) :
    List (List Char × List Char) :=
  objSpread (autoAlias archCats resCats) manualAlias

/-! ### restructure.js: size filter and merge loop

Paths are char lists with `'/'` separators.  The async generator `walk` is
represented by the list of file paths it yields below the walked root, given
relative to that root; the merge code below re-prefixes the root exactly as
`path.join` does. -/

/-- `fp.split(path.sep)` (keeps empty components, as JS `split` does). -/
def splitSlash : List Char → List (List Char)
  | [] => [[]]
  | c :: cs =>
    let r := splitSlash cs
    if c = '/' then [] :: r
    else
      match r with
      | h :: t => (c :: h) :: t
      | [] => [[c]]

/-- Exact suffix test. -/
def endsL (suf s : List Char) : Bool := startsL suf.reverse s.reverse

structure MCfg where
  size : List Char
  formats : List (List Char)
  archRoot : List Char
  resRoot : List Char
  dest : List Char

/-- `matchesSize` of restructure.js: lowercased extension must be in the
format allow-list, and either the lowercased basename ends with
`_<size>.<ext>` or some path component equals the size label. -/
def matchesSize (cfg : MCfg) (fp : List Char) : Bool :=
  if !(cfg.formats.contains (((splitExt (afterLastSlash fp)).2.drop 1).map Char.toLower))
  then false
  else
    endsL ('_' :: cfg.size ++ '.' :: ((splitExt (afterLastSlash fp)).2.drop 1).map Char.toLower)
      ((afterLastSlash fp).map Char.toLower) || (splitSlash fp).contains cfg.size

/-- `path.join(p, n)`. -/
def joinP (p n : List Char) : List Char := p ++ '/' :: n

/-- One architecture category as the merge loop sees it: its directory name,
the walked relative file paths of its `<size>` subdirectory, and, when an
aliased resource category resolved, that category's name and walked paths. -/
structure Cat where
  name : List Char
  sizeFiles : List (List Char)
  res : Option (List Char × List (List Char))

/-- The copy jobs of `mergeCat`: architecture candidates first, then resource
candidates, each filtered by `matchesSize` and mapped to
`dest/<archDirName>/<basename>`. -/
def catJobs (cfg : MCfg) (c : Cat) : List (List Char × List Char) :=
  let dstDir := joinP cfg.dest c.name
  let aj :=
    ((c.sizeFiles.map (joinP (joinP (joinP cfg.archRoot c.name) cfg.size))).filter
        (matchesSize cfg)).map (fun f => (f, joinP dstDir (afterLastSlash f)))
  let rj :=
    match c.res with
    | some rr =>
      ((rr.2.map (joinP (joinP cfg.resRoot rr.1))).filter (matchesSize cfg)).map
        (fun f => (f, joinP dstDir (afterLastSlash f)))
    | none => []
  aj ++ rj

/-- The run statistics `sum` of restructure.js. -/
structure MSum where
  copied : Nat
  skipped : Nat
  merged : Nat
  archOnly : Nat
  unmatched : List (List Char)
deriving DecidableEq

def initSum : MSum := ⟨0, 0, 0, 0, []⟩

/-- One worker iteration on one job `(src, dst)`.  The destination tree is an
association list `dst path ↦ copied source`; `copyFile(..., COPYFILE_EXCL)`
fails when `dst` is already present, and the `catch` counts that as skipped.
In dry-run mode the job is only counted as copied. -/
def jobStep (dry : Bool) (st : MSum × List (List Char × List Char))
    (j : List Char × List Char) : MSum × List (List Char × List Char) :=
  if dry then ({ st.1 with copied := st.1.copied + 1 }, st.2)
  else
    match alookup j.2 st.2 with
    | some _ => ({ st.1 with skipped := st.1.skipped + 1 }, st.2)
    | none => ({ st.1 with copied := st.1.copied + 1 }, (j.2, j.1) :: st.2)

/-- The worker pool drains the shared job index; each job is processed exactly
once (`i++` is synchronous on the event loop), so the pool is a fold. -/
def runJobs (dry : Bool) (jobs : List (List Char × List Char))
    (st : MSum × List (List Char × List Char)) : MSum × List (List Char × List Char) :=
  jobs.foldl (jobStep dry) st

def generalName : List Char := "Arch_General-Icons".toList

/-- The destination-tree state the merge loop mutates: the file map written by
the exclusive copies (`dst path ↦ copied source`) and the list of directories
created so far.  `ensureDir d` is restructure.js's
`fs.mkdir(d, { recursive: true })`: idempotent, and a recorded path stands for
itself together with its implicit ancestors. -/
structure FSt where
  files : List (List Char × List Char)
  dirs : List (List Char)
deriving DecidableEq

def ensureDir (d : List Char) (fst : FSt) : FSt :=
  if fst.dirs.contains d then fst else ⟨fst.files, fst.dirs ++ [d]⟩

/-- `mergeCat`.  The general-icons category runs `processGeneral`, which
creates the light and dark roots unconditionally — the `--dry-run` flag guards
only its `copyFile` calls, which never touch `sum` — and the category counts
as archOnly.  Every other category creates `dstDir` unconditionally
(`await ensureDir(dstDir)`), builds its job list (pushing archOnly/unmatched
when no resource category resolved), runs the workers over the file map, and
counts as merged when a resource category resolved. -/
def mergeCat (cfg : MCfg) (dry : Bool) (st : MSum × FSt) (c : Cat) : MSum × FSt :=
  if c.name = generalName then
    ({ st.1 with archOnly := st.1.archOnly + 1 },
     ensureDir (joinP cfg.dest "General-Icons-Dark".toList)
       (ensureDir (joinP cfg.dest "General-Icons-Light".toList) st.2))
  else
    let fs0 := ensureDir (joinP cfg.dest c.name) st.2
    let st1 : MSum :=
      match c.res with
      | some _ => st.1
      | none =>
        ⟨st.1.copied, st.1.skipped, st.1.merged, st.1.archOnly + 1,
          st.1.unmatched ++ [c.name]⟩
    let res := runJobs dry (catJobs cfg c) (st1, fs0.files)
    match c.res with
    | some _ => ({ res.1 with merged := res.1.merged + 1 }, ⟨res.2, fs0.dirs⟩)
    | none => (res.1, ⟨res.2, fs0.dirs⟩)

/-- The whole merge loop over all architecture categories, from empty
statistics on a clean destination; `await ensureDir(cfg.dest)` runs before the
loop, dry or not.  (The `copyGroup`/`copyCats` passes run after the loop and
never touch `sum`.) -/
def runMerge (cfg : MCfg) (dry : Bool) (cats : List Cat) : MSum × FSt :=
  cats.foldl (mergeCat cfg dry) (initSum, ensureDir cfg.dest ⟨[], []⟩)

/-- All copy jobs of a run, in processing order. -/
def allJobs (cfg : MCfg) (cats : List Cat) : List (List Char × List Char) :=
  cats.foldr (fun c r => (if c.name = generalName then [] else catJobs cfg c) ++ r) []

/-! ### rename.js: the recursive walk of `processDir` -/

/-- A directory tree: `readdir` order is the list order. -/
inductive FT where
  | file : List Char → FT
  | dir : List Char → List FT → FT

/-- One `renameSafe` call: the parent path (as components), the entry's
original name and the name `cleanName` produced for it. -/
structure REv where
  parent : List (List Char)
  oldName : List Char
  newName : List Char
deriving DecidableEq

/-- The sequence of `renameSafe` calls `processDir` makes on a directory's
entries: files are renamed on sight; a subdirectory is recursed into first and
renamed afterwards. -/
def renList : List (List Char) → List FT → List REv
  | _, [] => []
  | p, FT.file n :: es => ⟨p, n, cleanName n true⟩ :: renList p es
  | p, FT.dir n ch :: es =>
    (renList (p ++ [n]) ch ++ [⟨p, n, cleanName n false⟩]) ++ renList p es

/-- All subdirectory occurrences of a tree: parent path, name, children. -/
def occsList : List (List Char) → List FT → List (List (List Char) × List Char × List FT)
  | _, [] => []
  | p, FT.file _ :: es => occsList p es
  | p, FT.dir n ch :: es => (p, n, ch) :: (occsList (p ++ [n]) ch ++ occsList p es)

/-! ### svg-title.js: `processSvg` -/

def titleOpenL : List Char := ['<', 't', 'i', 't', 'l', 'e', '>']

def titleCloseL : List Char := ['<', '/', 't', 'i', 't', 'l', 'e', '>']

/-- Index of the first case-insensitive occurrence of `pat`. -/
def findSubCI (pat : List Char) : List Char → Option Nat
  | [] => if pat.isEmpty then some 0 else none
  | c :: cs => if startsWithCI pat (c :: cs) then some 0 else (findSubCI pat cs).map (· + 1)

/-- First match of `/<title>([\s\S]*?)<\/title>/i`: the earliest `<title>`
(matching succeeds there exactly when some `</title>` follows, and the lazy
group takes the shortest content).  Returns (before, content, after). -/
def firstTitleMatch (data : List Char) : Option (List Char × List Char × List Char) :=
  match findSubCI titleOpenL data with
  | none => none
  | some p =>
    let rest := data.drop (p + 7)
    match findSubCI titleCloseL rest with
    | none => none
    | some q => some (data.take p, rest.take q, rest.drop (q + 8))

def isWSb (c : Char) : Bool := c.isWhitespace

/-- `String.prototype.trim` (ASCII whitespace). -/
def trimWS (s : List Char) : List Char := dropTrailing isWSb (s.dropWhile isWSb)

/-- `processSvg` on a file's contents: `none` means the file is left
byte-for-byte unchanged (no title element, or the trimmed title is already
clean); `some u` means the file is rewritten with contents `u`. -/
def processSvg (data : List Char) : Option (List Char) :=
  match firstTitleMatch data with
  | none => none
  | some m =>
    let original := trimWS m.2.1
    let cleaned := cleanTitle original
    if cleaned = original then none
    else some (m.1 ++ "<title>".toList ++ cleaned ++ "</title>".toList ++ m.2.2)

example : cleanName "Amazon-EC2_48.svg".toList true = "EC2.svg".toList := by decide
example : cleanName "AWS.svg".toList true = "AWS.svg.svg".toList := by decide
example : cleanName "Arch_Arch_Foo".toList false = "Arch_Foo".toList := by decide
example : cleanName "Arch_Foo".toList false = "Foo".toList := by decide
example : cleanName "AmAWSazon".toList false = "Amazon".toList := by decide
example : cleanTitle "Amazon-EC2_48".toList = "Amazon-EC2".toList := by decide
example : cleanTitle "Arch_Analytics".toList = "Analytics".toList := by decide

/-- Every character of either brand token. -/
abbrev brandChar (a : Char) : Prop := a ∈ amazonL ∨ a ∈ awsL

/-- No two adjacent characters both satisfy `p` (used to state that the
collapse rule's output has no surviving separator runs). -/
def noAdjB (p : Char → Bool) : List Char → Bool
  | [] => true
  | [_] => true
  | a :: b :: t => !(p a && p b) && noAdjB p (b :: t)

/-! ### Generic lemmas about brand occurrences -/

theorem toLower_of_digit (c : Char) (h : c.isDigit = true) : c.toLower = c := by
  simp only [Char.isDigit, Bool.and_eq_true, decide_eq_true_eq] at h
  have h2 : c.val.toNat ≤ (57 : UInt32).toNat := h.2
  have h57 : (57 : UInt32).toNat = 57 := by decide
  rw [Char.toLower]
  rw [if_neg]
  simp only [Char.toNat]
  omega

theorem mchCI_of_digit (a c : Char) (h : c.isDigit = true) (ha : 97 ≤ a.toNat) :
    mchCI a c = false := by
  have hlow : c.toLower = c := toLower_of_digit c h
  simp only [Char.isDigit, Bool.and_eq_true, decide_eq_true_eq] at h
  have h2 : c.val.toNat ≤ (57 : UInt32).toNat := h.2
  have h57 : (57 : UInt32).toNat = 57 := by decide
  simp only [mchCI, hlow]
  rw [beq_eq_false_iff_ne]
  intro he
  rw [Char.ext_iff] at he
  have hv : c.val.toNat = a.val.toNat := by rw [he]
  simp only [Char.toNat] at ha
  omega

theorem brand_toNat : ∀ a, brandChar a → 97 ≤ a.toNat := by
  intro a ha
  rcases ha with h | h <;> fin_cases h <;> decide

theorem brand_mch_sep : ∀ a, brandChar a → mchCI a '-' = false ∧ mchCI a '_' = false := by
  intro a ha
  rcases ha with h | h <;> fin_cases h <;> exact ⟨by decide, by decide⟩

theorem brand_mch_dot : ∀ a, brandChar a → mchCI a '.' = false := by
  intro a ha
  rcases ha with h | h <;> fin_cases h <;> decide

theorem startsCI_append_right (w s r : List Char) (h : startsWithCI w s = true) :
    startsWithCI w (s ++ r) = true := by
  induction w generalizing s with
  | nil => simp [startsWithCI]
  | cons a ps ih =>
    cases s with
    | nil => simp [startsWithCI] at h
    | cons c cs =>
      simp only [startsWithCI, Bool.and_eq_true] at h
      simp only [List.cons_append, startsWithCI, Bool.and_eq_true]
      exact ⟨h.1, ih cs h.2⟩

theorem brand_head (c : Char) (cs : List Char) (h : isBrandAt (c :: cs) = true) :
    c.toLower = 'a' := by
  simp only [isBrandAt, amazonL, awsL, startsWithCI, mchCI, Bool.or_eq_true,
    Bool.and_eq_true, beq_iff_eq] at h
  rcases h with h | h
  · exact h.1
  · exact h.1

theorem containsBrand_cons_of (c : Char) (cs : List Char) (h : containsBrand cs = true) :
    containsBrand (c :: cs) = true := by
  simp only [containsBrand, Bool.or_eq_true]
  right
  exact h

theorem containsBrand_append_left (l1 l2 : List Char) (h : containsBrand l1 = true) :
    containsBrand (l1 ++ l2) = true := by
  induction l1 with
  | nil => simp [containsBrand] at h
  | cons c cs ih =>
    simp only [containsBrand, Bool.or_eq_true] at h
    simp only [List.cons_append, containsBrand, Bool.or_eq_true]
    rcases h with h | h
    · left
      simp only [isBrandAt, Bool.or_eq_true] at h ⊢
      rcases h with h | h
      · exact Or.inl (startsCI_append_right _ (c :: cs) l2 h)
      · exact Or.inr (startsCI_append_right _ (c :: cs) l2 h)
    · right
      exact ih h

theorem containsBrand_append_right (l1 l2 : List Char) (h : containsBrand l2 = true) :
    containsBrand (l1 ++ l2) = true := by
  induction l1 with
  | nil => simpa using h
  | cons c cs ih => exact containsBrand_cons_of _ _ ih

theorem containsBrand_of_no_a (l : List Char) (h : ∀ c ∈ l, ¬ c.toLower = 'a') :
    containsBrand l = false := by
  induction l with
  | nil => rfl
  | cons c cs ih =>
    simp only [containsBrand, Bool.or_eq_false_iff]
    constructor
    · by_contra hb
      rw [Bool.not_eq_false] at hb
      exact h c (by simp) (brand_head c cs hb)
    · exact ih fun d hd => h d (by simp [hd])

theorem startsCI_stop (w : List Char) (c : Char) (rest : List Char)
    (hc : ∀ a ∈ w, mchCI a c = false) :
    ∀ t, startsWithCI w (t ++ c :: rest) = true → startsWithCI w t = true := by
  induction w with
  | nil => intro t _; simp [startsWithCI]
  | cons a ps ih =>
    intro t ht
    cases t with
    | nil =>
      simp only [List.nil_append, startsWithCI, Bool.and_eq_true] at ht
      have := hc a (by simp)
      rw [this] at ht
      exact absurd ht.1 (by simp)
    | cons d t' =>
      simp only [List.cons_append, startsWithCI, Bool.and_eq_true] at ht
      simp only [startsWithCI, Bool.and_eq_true]
      exact ⟨ht.1, ih (fun a ha => hc a (by simp [ha])) t' ht.2⟩

theorem startsCI_append_inert (w l2 : List Char)
    (hc : ∀ a ∈ w, ∀ c ∈ l2, mchCI a c = false) :
    ∀ u, startsWithCI w (u ++ l2) = true → startsWithCI w u = true := by
  induction w with
  | nil => intro u _; simp [startsWithCI]
  | cons a ps ih =>
    intro u hu
    cases u with
    | nil =>
      simp only [List.nil_append] at hu
      cases l2 with
      | nil => simp [startsWithCI] at hu
      | cons c t =>
        simp only [startsWithCI, Bool.and_eq_true] at hu
        have := hc a (by simp) c (by simp)
        rw [this] at hu
        exact absurd hu.1 (by simp)
    | cons d u' =>
      simp only [List.cons_append, startsWithCI, Bool.and_eq_true] at hu
      simp only [startsWithCI, Bool.and_eq_true]
      exact ⟨hu.1, ih (fun a ha => hc a (by simp [ha])) u' hu.2⟩

theorem containsBrand_append_split (l1 : List Char) (c : Char) (l2 : List Char)
    (hc : ∀ a, brandChar a → mchCI a c = false)
    (h : containsBrand (l1 ++ c :: l2) = true) :
    containsBrand l1 = true ∨ containsBrand (c :: l2) = true := by
  induction l1 with
  | nil => right; simpa using h
  | cons d l1' ih =>
    simp only [List.cons_append, containsBrand, Bool.or_eq_true] at h
    rcases h with h | h
    · left
      simp only [containsBrand, Bool.or_eq_true]
      left
      simp only [isBrandAt, Bool.or_eq_true] at h ⊢
      rcases h with h | h
      · exact Or.inl (startsCI_stop _ c l2
          (fun a ha => hc a (Or.inl ha)) (d :: l1') h)
      · exact Or.inr (startsCI_stop _ c l2
          (fun a ha => hc a (Or.inr ha)) (d :: l1') h)
    · rcases ih h with h | h
      · exact Or.inl (containsBrand_cons_of _ _ h)
      · exact Or.inr h

theorem containsBrand_append_inert (l1 l2 : List Char)
    (hc : ∀ a, brandChar a → ∀ c ∈ l2, mchCI a c = false)
    (h : containsBrand (l1 ++ l2) = true) : containsBrand l1 = true := by
  induction l1 with
  | nil =>
    exfalso
    simp only [List.nil_append] at h
    have : containsBrand l2 = false := by
      apply containsBrand_of_no_a
      intro c hcm hla
      have := hc 'a' (Or.inl (by decide)) c hcm
      simp [mchCI, hla] at this
    rw [this] at h
    exact absurd h (by simp)
  | cons d l1' ih =>
    simp only [List.cons_append, containsBrand, Bool.or_eq_true] at h
    simp only [containsBrand, Bool.or_eq_true]
    rcases h with h | h
    · left
      simp only [isBrandAt, Bool.or_eq_true] at h ⊢
      rcases h with h | h
      · exact Or.inl (startsCI_append_inert _ _ (fun a ha => hc a (Or.inl ha)) (d :: l1') h)
      · exact Or.inr (startsCI_append_inert _ _ (fun a ha => hc a (Or.inr ha)) (d :: l1') h)
    · right
      exact ih h

/-! ### Brand occurrences through the individual substitution rules -/

theorem stripSize_decomp (s : List Char) : ∃ t3, s = stripSize s ++ t3 := by
  unfold stripSize
  split
  case _ t heq =>
    refine ⟨['_', '4', '8'], ?_⟩
    conv_lhs => rw [← s.reverse_reverse, heq]
    simp
  case _ t heq =>
    refine ⟨['_', '3', '2'], ?_⟩
    conv_lhs => rw [← s.reverse_reverse, heq]
    simp
  case _ => exact ⟨[], by simp⟩

theorem containsBrand_stripSize_down (s : List Char)
    (h : containsBrand (stripSize s) = true) : containsBrand s = true := by
  obtain ⟨t3, hs⟩ := stripSize_decomp s
  rw [hs]
  exact containsBrand_append_left _ _ h

theorem containsBrand_dropWhile_down (p : Char → Bool) (s : List Char)
    (h : containsBrand (s.dropWhile p) = true) : containsBrand s = true := by
  have hsplit := List.takeWhile_append_dropWhile (p := p) (l := s)
  rw [← hsplit]
  exact containsBrand_append_right _ _ h

theorem dropTrailing_decomp (p : Char → Bool) (s : List Char) :
    ∃ junk, s = dropTrailing p s ++ junk ∧ ∀ c ∈ junk, p c = true := by
  refine ⟨(s.reverse.takeWhile p).reverse, ?_, ?_⟩
  · conv_lhs => rw [← s.reverse_reverse]
    conv_lhs => rw [← List.takeWhile_append_dropWhile (p := p) (l := s.reverse)]
    rw [List.reverse_append]
    rfl
  · intro c hc
    rw [List.mem_reverse] at hc
    exact List.mem_takeWhile_imp hc

theorem containsBrand_dropTrailing_down (p : Char → Bool) (s : List Char)
    (h : containsBrand (dropTrailing p s) = true) : containsBrand s = true := by
  obtain ⟨junk, hs, _⟩ := dropTrailing_decomp p s
  rw [hs]
  exact containsBrand_append_left _ _ h

theorem sep_toLower_ne_a (c : Char) (hc : c = '-' ∨ c = '_') : ¬ c.toLower = 'a' := by
  rcases hc with rfl | rfl <;> decide

theorem startsCI_collapse_down (p : Char → Bool)
    (hp : ∀ c, p c = true → c = '-' ∨ c = '_') :
    ∀ s w, (∀ a ∈ w, brandChar a) →
      startsWithCI w (collapseAux p false s) = true → startsWithCI w s = true := by
  intro s
  induction s with
  | nil => intro w _ h; simpa [collapseAux] using h
  | cons c cs ih =>
    intro w hw h
    by_cases hc : p c = true
    · rcases cs with _ | ⟨d, t⟩
      · simp only [collapseAux, hc, if_true] at h
        cases w with
        | nil => simp [startsWithCI]
        | cons a ps =>
          exfalso
          simp only [startsWithCI, Bool.and_eq_true] at h
          have hm := brand_mch_sep a (hw a (by simp))
          rcases hp c hc with rfl | rfl
          · rw [hm.1] at h; exact absurd h.1 (by simp)
          · rw [hm.2] at h; exact absurd h.1 (by simp)
      · by_cases hd : p d = true
        · simp only [collapseAux, hc, hd, if_true] at h
          cases w with
          | nil => simp [startsWithCI]
          | cons a ps =>
            exfalso
            simp only [startsWithCI, Bool.and_eq_true] at h
            have hm := brand_mch_sep a (hw a (by simp))
            rw [hm.2] at h
            exact absurd h.1 (by simp)
        · simp only [collapseAux, hc, hd, if_true, if_false] at h
          cases w with
          | nil => simp [startsWithCI]
          | cons a ps =>
            exfalso
            simp only [startsWithCI, Bool.and_eq_true] at h
            have hm := brand_mch_sep a (hw a (by simp))
            rcases hp c hc with rfl | rfl
            · rw [hm.1] at h; exact absurd h.1 (by simp)
            · rw [hm.2] at h; exact absurd h.1 (by simp)
    · have hc' : p c = false := by simpa using hc
      simp only [collapseAux, hc', if_false, Bool.false_eq_true] at h
      cases w with
      | nil => simp [startsWithCI]
      | cons a ps =>
        simp only [startsWithCI, Bool.and_eq_true] at h ⊢
        exact ⟨h.1, ih ps (fun a ha => hw a (by simp [ha])) h.2⟩

theorem containsBrand_collapse_down (p : Char → Bool)
    (hp : ∀ c, p c = true → c = '-' ∨ c = '_') :
    ∀ s st, containsBrand (collapseAux p st s) = true → containsBrand s = true := by
  intro s
  induction s with
  | nil => intro st h; simpa [collapseAux] using h
  | cons c cs ih =>
    intro st h
    have hback : isBrandAt (c :: collapseAux p false cs) = true →
        containsBrand (c :: cs) = true := by
      intro hb
      simp only [containsBrand, Bool.or_eq_true]
      left
      simp only [isBrandAt, Bool.or_eq_true] at hb ⊢
      rcases hb with hb | hb
      · left
        simp only [amazonL, startsWithCI, Bool.and_eq_true] at hb ⊢
        exact ⟨hb.1, startsCI_collapse_down p hp cs _ (by decide) hb.2⟩
      · right
        simp only [awsL, startsWithCI, Bool.and_eq_true] at hb ⊢
        exact ⟨hb.1, startsCI_collapse_down p hp cs _ (by decide) hb.2⟩
    cases st with
    | true =>
      by_cases hc : p c = true
      · simp only [collapseAux, hc, if_true] at h
        exact containsBrand_cons_of _ _ (ih true h)
      · have hc' : p c = false := by simpa using hc
        simp only [collapseAux, hc', if_false, Bool.false_eq_true] at h
        simp only [containsBrand, Bool.or_eq_true] at h
        rcases h with h | h
        · exact hback h
        · exact containsBrand_cons_of _ _ (ih false h)
    | false =>
      by_cases hc : p c = true
      · rcases cs with _ | ⟨d, t⟩
        · exfalso
          simp only [collapseAux, hc, if_true] at h
          simp only [containsBrand, isBrandAt, amazonL, awsL, startsWithCI,
            Bool.and_eq_true, Bool.or_eq_true] at h
          rcases h with (⟨_, h⟩ | ⟨_, h⟩) | h
          · exact absurd h (by simp)
          · exact absurd h (by simp)
          · exact absurd h (by simp [containsBrand])
        · by_cases hd : p d = true
          · have hout : collapseAux p false (c :: d :: t) = '_' :: collapseAux p true (d :: t) := by
              simp only [collapseAux, hc, hd, if_true]
            rw [hout] at h
            simp only [containsBrand, Bool.or_eq_true] at h
            rcases h with h | h
            · exfalso
              have := brand_head _ _ h
              exact absurd this (by decide)
            · exact containsBrand_cons_of _ _ (ih true h)
          · have hout : collapseAux p false (c :: d :: t) = c :: collapseAux p false (d :: t) := by
              simp [collapseAux, hc, hd]
            rw [hout] at h
            simp only [containsBrand, Bool.or_eq_true] at h
            rcases h with h | h
            · exfalso
              have := brand_head _ _ h
              exact absurd this (sep_toLower_ne_a c (hp c hc))
            · exact containsBrand_cons_of _ _ (ih false h)
      · have hc' : p c = false := by simpa using hc
        simp only [collapseAux, hc', if_false, Bool.false_eq_true] at h
        simp only [containsBrand, Bool.or_eq_true] at h
        rcases h with h | h
        · exact hback h
        · exact containsBrand_cons_of _ _ (ih false h)

theorem startsCI_collapse_up (p : Char → Bool)
    (hp : ∀ c, p c = true → c = '-' ∨ c = '_') :
    ∀ s w, (∀ a ∈ w, brandChar a) →
      startsWithCI w s = true → startsWithCI w (collapseAux p false s) = true := by
  intro s
  induction s with
  | nil =>
    intro w _ h
    simpa [collapseAux] using h
  | cons c cs ih =>
    intro w hw h
    cases w with
    | nil => simp [startsWithCI]
    | cons a ps =>
      simp only [startsWithCI, Bool.and_eq_true] at h
      have hpc : p c = false := by
        by_contra hpc
        rw [Bool.not_eq_false] at hpc
        have hm := brand_mch_sep a (hw a (by simp))
        rcases hp c hpc with rfl | rfl
        · rw [hm.1] at h; exact absurd h.1 (by simp)
        · rw [hm.2] at h; exact absurd h.1 (by simp)
      have hout : collapseAux p false (c :: cs) = c :: collapseAux p false cs := by
        simp [collapseAux, hpc]
      rw [hout]
      simp only [startsWithCI, Bool.and_eq_true]
      exact ⟨h.1, ih ps (fun a ha => hw a (by simp [ha])) h.2⟩

theorem containsBrand_collapse_up (p : Char → Bool)
    (hp : ∀ c, p c = true → c = '-' ∨ c = '_') :
    ∀ s st, containsBrand s = true → containsBrand (collapseAux p st s) = true := by
  intro s
  induction s with
  | nil => intro st h; simp [containsBrand] at h
  | cons c cs ih =>
    intro st h
    simp only [containsBrand, Bool.or_eq_true] at h
    have hfwd : isBrandAt (c :: cs) = true →
        containsBrand (c :: collapseAux p false cs) = true := by
      intro hb
      simp only [containsBrand, Bool.or_eq_true]
      left
      simp only [isBrandAt, Bool.or_eq_true] at hb ⊢
      rcases hb with hb | hb
      · left
        simp only [amazonL, startsWithCI, Bool.and_eq_true] at hb ⊢
        exact ⟨hb.1, startsCI_collapse_up p hp cs _ (by decide) hb.2⟩
      · right
        simp only [awsL, startsWithCI, Bool.and_eq_true] at hb ⊢
        exact ⟨hb.1, startsCI_collapse_up p hp cs _ (by decide) hb.2⟩
    have hpc : isBrandAt (c :: cs) = true → p c = false := by
      intro hb
      by_contra hpc
      rw [Bool.not_eq_false] at hpc
      exact absurd (brand_head _ _ hb) (sep_toLower_ne_a c (hp c hpc))
    cases st with
    | true =>
      by_cases hc : p c = true
      · have hout : collapseAux p true (c :: cs) = collapseAux p true cs := by
          simp [collapseAux, hc]
        rw [hout]
        rcases h with h | h
        · exact absurd (hpc h) (by simp [hc])
        · exact ih true h
      · have hc' : p c = false := by simpa using hc
        have hout : collapseAux p true (c :: cs) = c :: collapseAux p false cs := by
          simp [collapseAux, hc']
        rw [hout]
        rcases h with h | h
        · exact hfwd h
        · exact containsBrand_cons_of _ _ (ih false h)
    | false =>
      by_cases hc : p c = true
      · rcases h with h | h
        · exact absurd (hpc h) (by simp [hc])
        · rcases cs with _ | ⟨d, t⟩
          · simp [containsBrand] at h
          · by_cases hd : p d = true
            · have hout : collapseAux p false (c :: d :: t) =
                  '_' :: collapseAux p true (d :: t) := by
                simp only [collapseAux, hc, hd, if_true]
              rw [hout]
              exact containsBrand_cons_of _ _ (ih true h)
            · have hout : collapseAux p false (c :: d :: t) =
                  c :: collapseAux p false (d :: t) := by
                simp [collapseAux, hc, hd]
              rw [hout]
              exact containsBrand_cons_of _ _ (ih false h)
      · have hc' : p c = false := by simpa using hc
        have hout : collapseAux p false (c :: cs) = c :: collapseAux p false cs := by
          simp [collapseAux, hc']
        rw [hout]
        rcases h with h | h
        · exact hfwd h
        · exact containsBrand_cons_of _ _ (ih false h)

theorem containsBrand_dropWhile_up (p : Char → Bool)
    (hp : ∀ c, p c = true → c = '-' ∨ c = '_') (s : List Char)
    (h : containsBrand s = true) : containsBrand (s.dropWhile p) = true := by
  induction s with
  | nil => simp [containsBrand] at h
  | cons c cs ih =>
    by_cases hc : p c = true
    · rw [List.dropWhile_cons_of_pos hc]
      simp only [containsBrand, Bool.or_eq_true] at h
      rcases h with h | h
      · exact absurd (brand_head _ _ h) (sep_toLower_ne_a c (hp c hc))
      · exact ih h
    · rw [List.dropWhile_cons_of_neg hc]
      exact h

theorem containsBrand_dropTrailing_up (p : Char → Bool)
    (hp : ∀ c, p c = true → c = '-' ∨ c = '_') (s : List Char)
    (h : containsBrand s = true) : containsBrand (dropTrailing p s) = true := by
  obtain ⟨junk, hs, hj⟩ := dropTrailing_decomp p s
  rw [hs] at h
  refine containsBrand_append_inert _ _ ?_ h
  intro a ha c hc
  have hm := brand_mch_sep a ha
  rcases hp c (hj c hc) with rfl | rfl
  · exact hm.1
  · exact hm.2

theorem containsBrand_trimSeps_up (s : List Char) (h : containsBrand s = true) :
    containsBrand (trimSeps s) = true := by
  have hp : ∀ c, sepB c = true → c = '-' ∨ c = '_' := by
    intro c hc
    simp only [sepB, Bool.or_eq_true, beq_iff_eq] at hc
    exact hc
  exact containsBrand_dropTrailing_up sepB hp _
    (containsBrand_dropWhile_up sepB hp s h)

theorem containsBrand_trimSeps_down (s : List Char)
    (h : containsBrand (trimSeps s) = true) : containsBrand s = true :=
  containsBrand_dropWhile_down sepB s (containsBrand_dropTrailing_down sepB _ h)

/-- `l.drop (l.takeWhile p).length = l.dropWhile p`. -/
theorem drop_len_takeWhile (p : Char → Bool) (l : List Char) :
    l.drop (l.takeWhile p).length = l.dropWhile p := by
  induction l with
  | nil => rfl
  | cons c cs ih =>
    by_cases h : p c = true
    · rw [List.takeWhile_cons_of_pos h, List.dropWhile_cons_of_pos h]
      simpa using ih
    · rw [List.takeWhile_cons_of_neg h, List.dropWhile_cons_of_neg h]
      simp

theorem containsBrand_stripNumSuffix_up (s : List Char)
    (h : containsBrand s = true) : containsBrand (stripNumSuffix s) = true := by
  unfold stripNumSuffix
  by_cases hds : s.reverse.takeWhile Char.isDigit = []
  · simpa [hds] using h
  · simp only [hds, if_false]
    split
    case _ t heq =>
      have hsplit : s.reverse = s.reverse.takeWhile Char.isDigit ++ '_' :: t := by
        conv_lhs => rw [← List.takeWhile_append_dropWhile (p := Char.isDigit) (l := s.reverse)]
        rw [← drop_len_takeWhile Char.isDigit s.reverse, heq]
      have hsv : s = t.reverse ++ '_' :: (s.reverse.takeWhile Char.isDigit).reverse := by
        conv_lhs => rw [← s.reverse_reverse, hsplit]
        simp
      rw [hsv] at h
      refine containsBrand_append_inert _ _ ?_ h
      intro a ha c hc
      rcases List.mem_cons.mp hc with rfl | hc2
      · exact (brand_mch_sep a ha).2
      · rw [List.mem_reverse] at hc2
        exact mchCI_of_digit a c (List.mem_takeWhile_imp hc2) (brand_toNat a ha)
    case _ =>
      simpa using h

/-! ### Brand survival through the title rules -/

theorem startsCI_ex (a : Char) (w s : List Char) (h : startsWithCI (a :: w) s = true) :
    ∃ c cs, s = c :: cs ∧ c.toLower = a ∧ startsWithCI w cs = true := by
  cases s with
  | nil => simp [startsWithCI] at h
  | cons c cs =>
    simp only [startsWithCI, Bool.and_eq_true, mchCI, beq_iff_eq] at h
    exact ⟨c, cs, rfl, h.1, h.2⟩

theorem isBrandAt_second (c0 c1 : Char) (cs : List Char)
    (h : isBrandAt (c0 :: c1 :: cs) = true) : c1.toLower = 'm' ∨ c1.toLower = 'w' := by
  simp only [isBrandAt, amazonL, awsL, startsWithCI, Bool.and_eq_true, mchCI,
    beq_iff_eq, Bool.or_eq_true] at h
  rcases h with h | h
  · exact Or.inl h.2.1
  · exact Or.inr h.2.1

theorem containsBrand_stripTitleMarker_up (s : List Char)
    (h : containsBrand s = true) : containsBrand (stripTitleMarker s) = true := by
  unfold stripTitleMarker
  by_cases ha : startsWithCI archTitleL s = true
  · simp only [ha, if_true]
    rw [show archTitleL = 'a' :: ['r', 'c', 'h', '_'] from rfl] at ha
    obtain ⟨c0, s0, rfl, h0, ha⟩ := startsCI_ex _ _ _ ha
    obtain ⟨c1, s1, rfl, h1, ha⟩ := startsCI_ex _ _ _ ha
    obtain ⟨c2, s2, rfl, h2, ha⟩ := startsCI_ex _ _ _ ha
    obtain ⟨c3, s3, rfl, h3, ha⟩ := startsCI_ex _ _ _ ha
    obtain ⟨c4, s4, rfl, h4, ha⟩ := startsCI_ex _ _ _ ha
    simp only [List.drop_succ_cons, List.drop_zero]
    simp only [containsBrand, Bool.or_eq_true] at h
    rcases h with h | h | h | h | h | h
    · rcases isBrandAt_second _ _ _ h with hm | hm <;> rw [h1] at hm <;> exact absurd hm (by decide)
    · rw [brand_head _ _ h] at h1; exact absurd h1 (by decide)
    · rw [brand_head _ _ h] at h2; exact absurd h2 (by decide)
    · rw [brand_head _ _ h] at h3; exact absurd h3 (by decide)
    · rw [brand_head _ _ h] at h4; exact absurd h4 (by decide)
    · exact h
  · simp only [ha, if_false, Bool.false_eq_true]
    by_cases hr : startsWithCI resTitleL s = true
    · simp only [hr, if_true]
      rw [show resTitleL = 'r' :: ['e', 's', '_'] from rfl] at hr
      obtain ⟨c0, s0, rfl, h0, hr⟩ := startsCI_ex _ _ _ hr
      obtain ⟨c1, s1, rfl, h1, hr⟩ := startsCI_ex _ _ _ hr
      obtain ⟨c2, s2, rfl, h2, hr⟩ := startsCI_ex _ _ _ hr
      obtain ⟨c3, s3, rfl, h3, hr⟩ := startsCI_ex _ _ _ hr
      simp only [List.drop_succ_cons, List.drop_zero]
      simp only [containsBrand, Bool.or_eq_true] at h
      rcases h with h | h | h | h | h
      · rw [brand_head _ _ h] at h0; exact absurd h0 (by decide)
      · rw [brand_head _ _ h] at h1; exact absurd h1 (by decide)
      · rw [brand_head _ _ h] at h2; exact absurd h2 (by decide)
      · rw [brand_head _ _ h] at h3; exact absurd h3 (by decide)
      · exact h
    · simp only [hr, if_false, Bool.false_eq_true]
      exact h

theorem sepB_cases (c : Char) (hc : sepB c = true) : c = '-' ∨ c = '_' := by
  simp only [sepB, Bool.or_eq_true, beq_iff_eq] at hc
  exact hc

theorem usep_cases (c : Char) (hc : (c == '_') = true) : c = '-' ∨ c = '_' :=
  Or.inr (by simpa [beq_iff_eq] using hc)

/-- A title containing a brand token and no path separator keeps a brand token
through `cleanTitle`. -/
theorem containsBrand_cleanTitle (raw : List Char) (hb : containsBrand raw = true)
    (hs : raw.contains '/' = false) : containsBrand (cleanTitle raw) = true := by
  unfold cleanTitle
  simp only [hs, if_false, Bool.false_eq_true]
  have h1 := containsBrand_stripTitleMarker_up raw hb
  have h2 := containsBrand_stripNumSuffix_up _ h1
  have h3 := containsBrand_collapse_up (fun c => c == '_') usep_cases _ false h2
  have h4 := containsBrand_trimSeps_up _ h3
  by_cases he : trimSeps (collapseAux (fun c => c == '_') false
      (stripNumSuffix (stripTitleMarker raw))) = []
  · simp only [he, if_true]
    exact hb
  · simp only [he, if_false]
    exact h4

/-! ### Brand removal through the filename rules -/

theorem pipeline_brandfree (b : List Char)
    (h : containsBrand (stripBrands (stripLeadMarker b)) = false) :
    containsBrand (pipelineBase b) = false := by
  by_contra hc
  rw [Bool.not_eq_false] at hc
  have h1 := containsBrand_trimSeps_down _ hc
  have h2 := containsBrand_collapse_down sepB sepB_cases _ false h1
  have h3 := containsBrand_stripSize_down _ h2
  rw [h] at h3
  exact absurd h3 (by simp)

theorem splitExt_ext_shape (s : List Char) :
    (splitExt s).2 = [] ∨ ∃ e, (splitExt s).2 = '.' :: e ∧ '.' ∉ e := by
  unfold splitExt
  split
  · left; rfl
  · left; rfl
  · right
    refine ⟨_, rfl, ?_⟩
    intro hmem
    rw [List.mem_reverse] at hmem
    have := List.mem_takeWhile_imp hmem
    simp at this
  · left; rfl

theorem containsBrand_append_ext (b ext : List Char) (hb : containsBrand b = false)
    (he : containsBrand ext = false) (hshape : ext = [] ∨ ∃ e, ext = '.' :: e) :
    containsBrand (b ++ ext) = false := by
  rcases hshape with rfl | ⟨e, rfl⟩
  · simpa using hb
  · by_contra hcon
    rw [Bool.not_eq_false] at hcon
    rcases containsBrand_append_split b '.' e brand_mch_dot hcon with h | h
    · rw [hb] at h; exact absurd h (by simp)
    · rw [he] at h; exact absurd h (by simp)

/-! ### Claim C3 -/

/-- C3 counterexample: `"AmAWSazon"` contains a brand token (`AWS`), yet the
filename rule's output `cleanName "AmAWSazon" false = "Amazon"` still contains
a brand token — removing the inner `AWS` splices the surrounding characters
into a fresh `Amazon`, so the claim's first half fails at this input. -/
theorem c3_brand_divergence_cex :
    containsBrand "AmAWSazon".toList = true ∧
      cleanName "AmAWSazon".toList false = "Amazon".toList ∧
      containsBrand (cleanName "AmAWSazon".toList false) = true := by
  refine ⟨by decide, by decide, by decide⟩

/-- C3 (amended): for every name that contains a brand token, contains no
path separator, whose brand-stripped base contains no brand occurrence (ruling
out tokens re-created by overlapping removals), whose cleaned base is nonempty
(ruling out the fallback), and whose file extension contains no brand token:
the filename rule `cleanName` yields a brand-free output while the title rule
`cleanTitle` on the same input retains a brand token. -/
theorem c3_brand_divergence_amended (name : List Char) (isFile : Bool)
    (hb : containsBrand name = true)
    (hs : name.contains '/' = false)
    (hfree : containsBrand (stripBrands (stripLeadMarker
      (if isFile then splitExt name else (name, [])).1)) = false)
    (hne : pipelineBase (if isFile then splitExt name else (name, [])).1 ≠ [])
    (hext : containsBrand (if isFile then splitExt name else (name, [])).2 = false) :
    containsBrand (cleanName name isFile) = false ∧
      containsBrand (cleanTitle name) = true := by
  refine ⟨?_, containsBrand_cleanTitle name hb hs⟩
  have hbase := pipeline_brandfree _ hfree
  cases isFile with
  | false =>
    simp only [Bool.false_eq_true, if_false] at hbase hne ⊢
    unfold cleanName
    simp only [Bool.false_eq_true, if_false, if_neg hne]
    exact hbase
  | true =>
    simp only [if_true] at hbase hne hext
    unfold cleanName
    simp only [if_true, if_neg hne]
    refine containsBrand_append_ext _ _ hbase hext ?_
    rcases splitExt_ext_shape name with h | ⟨e, he, _⟩
    · exact Or.inl h
    · exact Or.inr ⟨e, he⟩

/-- C3 amended witness at `"Amazon-EC2_48.svg"` (a file name): the cleaned
filename `EC2.svg` is brand-free while the cleaned title retains `Amazon`. -/
theorem c3_brand_divergence_amended_witness :
    containsBrand (cleanName "Amazon-EC2_48.svg".toList true) = false ∧
      containsBrand (cleanTitle "Amazon-EC2_48.svg".toList) = true :=
  c3_brand_divergence_amended "Amazon-EC2_48.svg".toList true (by decide) (by decide)
    (by decide) (by decide) (by decide)

/-! ### Fixed points of the collapse and trim rules (for idempotence) -/

theorem collapse_true_head (p : Char → Bool) :
    ∀ s c, (collapseAux p true s).head? = some c → p c = false := by
  intro s
  induction s with
  | nil => intro c h; simp [collapseAux] at h
  | cons d t ih =>
    intro c h
    by_cases hd : p d = true
    · rw [show collapseAux p true (d :: t) = collapseAux p true t by simp [collapseAux, hd]] at h
      exact ih c h
    · have hd' : p d = false := by simpa using hd
      rw [show collapseAux p true (d :: t) = d :: collapseAux p false t by
        simp [collapseAux, hd']] at h
      simp only [List.head?_cons, Option.some.injEq] at h
      rw [← h]
      exact hd'

theorem collapse_false_cons_neg (p : Char → Bool) (c : Char) (cs : List Char)
    (hc : p c = false) : collapseAux p false (c :: cs) = c :: collapseAux p false cs := by
  simp [collapseAux, hc]

theorem noAdjB_tail (p : Char → Bool) (a : Char) (l : List Char)
    (h : noAdjB p (a :: l) = true) : noAdjB p l = true := by
  cases l with
  | nil => rfl
  | cons b t =>
    simp only [noAdjB, Bool.and_eq_true] at h
    exact h.2

theorem noAdjB_cons_intro (p : Char → Bool) (c : Char) (l : List Char)
    (hl : noAdjB p l = true)
    (hpair : ∀ b, l.head? = some b → ¬(p c = true ∧ p b = true)) :
    noAdjB p (c :: l) = true := by
  cases l with
  | nil => rfl
  | cons b t =>
    simp only [noAdjB, Bool.and_eq_true]
    refine ⟨?_, hl⟩
    have := hpair b rfl
    by_cases hc : p c = true
    · by_cases hb : p b = true
      · exact absurd ⟨hc, hb⟩ this
      · simp [hb]
    · simp [hc]

theorem noAdj_collapse (p : Char → Bool) :
    ∀ s st, noAdjB p (collapseAux p st s) = true := by
  intro s
  induction s with
  | nil => intro st; simp [collapseAux, noAdjB]
  | cons c cs ih =>
    intro st
    cases st with
    | true =>
      by_cases hc : p c = true
      · rw [show collapseAux p true (c :: cs) = collapseAux p true cs by simp [collapseAux, hc]]
        exact ih true
      · have hc' : p c = false := by simpa using hc
        rw [show collapseAux p true (c :: cs) = c :: collapseAux p false cs by
          simp [collapseAux, hc']]
        refine noAdjB_cons_intro p c _ (ih false) ?_
        intro b _ hpb
        rw [hc'] at hpb
        exact absurd hpb.1 (by simp)
    | false =>
      by_cases hc : p c = true
      · rcases cs with _ | ⟨d, t⟩
        · simp [collapseAux, hc, noAdjB]
        · by_cases hd : p d = true
          · rw [show collapseAux p false (c :: d :: t) = '_' :: collapseAux p true (d :: t) by
              simp only [collapseAux, hc, hd, if_true]]
            refine noAdjB_cons_intro p '_' _ (ih true) ?_
            intro b hb hpb
            rw [collapse_true_head p (d :: t) b hb] at hpb
            exact absurd hpb.2 (by simp)
          · have hd' : p d = false := by simpa using hd
            rw [show collapseAux p false (c :: d :: t) = c :: collapseAux p false (d :: t) by
              simp [collapseAux, hc, hd']]
            refine noAdjB_cons_intro p c _ (ih false) ?_
            intro b hb hpb
            rw [collapse_false_cons_neg p d t hd'] at hb
            simp only [List.head?_cons, Option.some.injEq] at hb
            rw [← hb, hd'] at hpb
            exact absurd hpb.2 (by simp)
      · have hc' : p c = false := by simpa using hc
        rw [collapse_false_cons_neg p c cs hc']
        refine noAdjB_cons_intro p c _ (ih false) ?_
        intro b _ hpb
        rw [hc'] at hpb
        exact absurd hpb.1 (by simp)

theorem noAdjB_append_left (p : Char → Bool) (l2 : List Char) :
    ∀ l1, noAdjB p (l1 ++ l2) = true → noAdjB p l1 = true := by
  intro l1
  induction l1 with
  | nil => intro _; rfl
  | cons a l1' ih =>
    intro h
    cases l1' with
    | nil => rfl
    | cons b l1'' =>
      simp only [List.cons_append, noAdjB, Bool.and_eq_true] at h ⊢
      exact ⟨h.1, ih h.2⟩

theorem noAdjB_append_right (p : Char → Bool) (l2 : List Char) :
    ∀ l1, noAdjB p (l1 ++ l2) = true → noAdjB p l2 = true := by
  intro l1
  induction l1 with
  | nil => intro h; exact h
  | cons a l1' ih =>
    intro h
    exact ih (noAdjB_tail p a _ h)

theorem collapse_of_noAdj (p : Char → Bool) :
    ∀ s, noAdjB p s = true → collapseAux p false s = s := by
  intro s
  induction s with
  | nil => intro _; rfl
  | cons c cs ih =>
    intro h
    by_cases hc : p c = true
    · rcases cs with _ | ⟨d, t⟩
      · simp [collapseAux, hc]
      · have hd : p d = false := by
          simp only [noAdjB, Bool.and_eq_true, hc, Bool.not_eq_eq_eq_not] at h
          rcases h with ⟨h1, _⟩
          simpa using h1
        rw [show collapseAux p false (c :: d :: t) = c :: collapseAux p false (d :: t) by
          simp [collapseAux, hc, hd]]
        rw [ih (noAdjB_tail p c _ h)]
    · have hc' : p c = false := by simpa using hc
      rw [collapse_false_cons_neg p c cs hc']
      rw [ih (noAdjB_tail p c _ h)]

theorem dropWhile_head_neg (p : Char → Bool) :
    ∀ (s : List Char) (c : Char), (s.dropWhile p).head? = some c → p c = false := by
  intro s
  induction s with
  | nil => intro c h; simp [List.dropWhile] at h
  | cons d t ih =>
    intro c h
    by_cases hd : p d = true
    · rw [List.dropWhile_cons_of_pos hd] at h
      exact ih c h
    · have hd' : p d = false := by simpa using hd
      rw [List.dropWhile_cons_of_neg (by simp [hd'])] at h
      simp only [List.head?_cons, Option.some.injEq] at h
      rw [← h]
      exact hd'

theorem dropWhile_eq_self_of_head (p : Char → Bool) (s : List Char)
    (h : ∀ c, s.head? = some c → p c = false) : s.dropWhile p = s := by
  cases s with
  | nil => rfl
  | cons c cs =>
    rw [List.dropWhile_cons_of_neg]
    simp [h c rfl]

theorem trimSeps_collapse_fix (x : List Char) :
    collapseSeps (trimSeps (collapseSeps x)) = trimSeps (collapseSeps x) ∧
      trimSeps (trimSeps (collapseSeps x)) = trimSeps (collapseSeps x) := by
  by_cases hre : trimSeps (collapseSeps x) = []
  · rw [hre]
    exact ⟨rfl, rfl⟩
  · have hy : noAdjB sepB (collapseSeps x) = true := noAdj_collapse sepB x false
    have hz : noAdjB sepB ((collapseSeps x).dropWhile sepB) = true := by
      have hsplit := List.takeWhile_append_dropWhile (p := sepB) (l := collapseSeps x)
      exact noAdjB_append_right sepB _ _ (by rw [hsplit]; exact hy)
    obtain ⟨junk, hdec, _⟩ := dropTrailing_decomp sepB ((collapseSeps x).dropWhile sepB)
    have htr : trimSeps (collapseSeps x) =
        dropTrailing sepB ((collapseSeps x).dropWhile sepB) := rfl
    have hr_noadj : noAdjB sepB (trimSeps (collapseSeps x)) = true := by
      apply noAdjB_append_left sepB junk
      rw [htr, show dropTrailing sepB ((collapseSeps x).dropWhile sepB) ++ junk =
        (collapseSeps x).dropWhile sepB from (hdec).symm]
      exact hz
    have hr_head : ∀ c, (trimSeps (collapseSeps x)).head? = some c → sepB c = false := by
      intro c hcs
      rw [htr] at hcs
      apply dropWhile_head_neg sepB (collapseSeps x) c
      rw [hdec, List.head?_append, hcs]
      rfl
    have hr_last : ∀ c, (trimSeps (collapseSeps x)).reverse.head? = some c →
        sepB c = false := by
      intro c hcs
      have hrrev : (trimSeps (collapseSeps x)).reverse =
          ((collapseSeps x).dropWhile sepB).reverse.dropWhile sepB := by
        rw [htr]
        unfold dropTrailing
        rw [List.reverse_reverse]
      rw [hrrev] at hcs
      exact dropWhile_head_neg sepB _ c hcs
    constructor
    · exact collapse_of_noAdj sepB _ hr_noadj
    · show dropTrailing sepB ((trimSeps (collapseSeps x)).dropWhile sepB) =
        trimSeps (collapseSeps x)
      rw [dropWhile_eq_self_of_head sepB _ hr_head]
      show ((trimSeps (collapseSeps x)).reverse.dropWhile sepB).reverse =
        trimSeps (collapseSeps x)
      rw [dropWhile_eq_self_of_head sepB _ hr_last]
      exact List.reverse_reverse _

theorem pipelineBase_fix (x : List Char)
    (h2 : stripLeadMarker (pipelineBase x) = pipelineBase x)
    (h3 : stripBrands (pipelineBase x) = pipelineBase x)
    (h4 : stripSize (pipelineBase x) = pipelineBase x) :
    pipelineBase (pipelineBase x) = pipelineBase x := by
  have hfix := trimSeps_collapse_fix (stripSize (stripBrands (stripLeadMarker x)))
  calc pipelineBase (pipelineBase x)
      = trimSeps (collapseSeps (stripSize (stripBrands
          (stripLeadMarker (pipelineBase x))))) := rfl
    _ = trimSeps (collapseSeps (pipelineBase x)) := by rw [h2, h3, h4]
    _ = trimSeps (collapseSeps (trimSeps (collapseSeps (stripSize (stripBrands
          (stripLeadMarker x)))))) := rfl
    _ = trimSeps (collapseSeps (stripSize (stripBrands (stripLeadMarker x)))) := by
          rw [hfix.1, hfix.2]
    _ = pipelineBase x := rfl

/-! ### Splitting a cleaned file name at its extension again -/

theorem takeWhile_append_not (p : Char → Bool) (l1 : List Char) (a : Char)
    (l2 : List Char) (h1 : ∀ c ∈ l1, p c = true) (h2 : p a = false) :
    (l1 ++ a :: l2).takeWhile p = l1 := by
  induction l1 with
  | nil =>
    simp only [List.nil_append]
    rw [List.takeWhile_cons_of_neg (by simp [h2])]
  | cons c t ih =>
    simp only [List.cons_append]
    rw [List.takeWhile_cons_of_pos (h1 c (by simp))]
    rw [ih (fun c hc => h1 c (by simp [hc]))]

theorem splitExt_of_ext (b e : List Char) (hb : b ≠ []) (he : '.' ∉ e) :
    splitExt (b ++ '.' :: e) = (b, '.' :: e) := by
  have htw : (b ++ '.' :: e).reverse.takeWhile (fun c => c ≠ '.') = e.reverse := by
    rw [show (b ++ '.' :: e).reverse = e.reverse ++ '.' :: b.reverse by simp]
    refine takeWhile_append_not _ _ _ _ ?_ (by simp)
    intro c hc
    rw [List.mem_reverse] at hc
    simp only [ne_eq, decide_eq_true_eq]
    intro hcc
    exact he (hcc ▸ hc)
  have hdrop : List.drop e.reverse.length (b ++ '.' :: e).reverse = '.' :: b.reverse := by
    rw [show (b ++ '.' :: e).reverse = e.reverse ++ '.' :: b.reverse by simp]
    exact List.drop_left _ _
  unfold splitExt
  rw [htw, hdrop]
  obtain ⟨x, xs, hxx⟩ : ∃ x xs, b.reverse = x :: xs := by
    cases hbr : b.reverse with
    | nil => exact absurd (List.reverse_eq_nil_iff.mp hbr) hb
    | cons x xs => exact ⟨x, xs, rfl⟩
  rw [hxx]
  show ((x :: xs).reverse, '.' :: e.reverse.reverse) = (b, '.' :: e)
  rw [← hxx]
  simp [List.reverse_reverse]

theorem splitExt_no_dot (b : List Char) (hb : '.' ∉ b) : splitExt b = (b, []) := by
  have htw : b.reverse.takeWhile (fun c => c ≠ '.') = b.reverse := by
    rw [List.takeWhile_eq_self_iff]
    intro c hc
    rw [List.mem_reverse] at hc
    simp only [ne_eq, decide_eq_true_eq]
    intro hcc
    exact hb (hcc ▸ hc)
  unfold splitExt
  rw [htw, List.drop_length]

/-! ### Claim C1 -/

/-- C1 counterexample: `cleanName` is not idempotent.  On the directory name
`"Arch_Arch_Foo"` one application strips only the first `Arch_` marker, giving
`"Arch_Foo"`; a second application strips the re-exposed marker and gives
`"Foo"`, so applying the normalizer twice differs from applying it once. -/
theorem c1_cleanName_not_idem_cex :
    cleanName "Arch_Arch_Foo".toList false = "Arch_Foo".toList ∧
      cleanName (cleanName "Arch_Arch_Foo".toList false) false ≠
        cleanName "Arch_Arch_Foo".toList false := by
  refine ⟨by decide, by decide⟩

/-- C1 (amended): `cleanName` is idempotent at every input whose once-cleaned
base is itself clean — the cleaned base is unmoved by the prefix-marker strip,
the brand strip and the size strip — and, for file names, whose cleaned base
is nonempty (the fallback otherwise re-appends the extension) and dot-free
when the name has no extension.  Directory names need no nonemptiness
hypothesis: the fallback returns the unchanged original there. -/
theorem c1_cleanName_idem_amended (name : List Char) (isFile : Bool)
    (hne : isFile = true → pipelineBase (splitExt name).1 ≠ [])
    (hdot : isFile = true → (splitExt name).2 = [] → '.' ∉ pipelineBase (splitExt name).1)
    (h2 : stripLeadMarker (pipelineBase (if isFile then splitExt name else (name, [])).1) =
      pipelineBase (if isFile then splitExt name else (name, [])).1)
    (h3 : stripBrands (pipelineBase (if isFile then splitExt name else (name, [])).1) =
      pipelineBase (if isFile then splitExt name else (name, [])).1)
    (h4 : stripSize (pipelineBase (if isFile then splitExt name else (name, [])).1) =
      pipelineBase (if isFile then splitExt name else (name, [])).1) :
    cleanName (cleanName name isFile) isFile = cleanName name isFile := by
  cases isFile with
  | false =>
    simp only [Bool.false_eq_true, if_false] at h2 h3 h4
    by_cases hb : pipelineBase name = []
    · have h0 : cleanName name false = name := by
        unfold cleanName
        simp [hb]
      rw [h0]
      exact h0
    · have h0 : cleanName name false = pipelineBase name := by
        unfold cleanName
        simp [hb]
      rw [h0]
      have hfix := pipelineBase_fix name h2 h3 h4
      unfold cleanName
      simp only [Bool.false_eq_true, if_false, hfix]
      rw [if_neg hb]
  | true =>
    simp only [if_true] at h2 h3 h4
    have hne' := hne rfl
    have h0 : cleanName name true = pipelineBase (splitExt name).1 ++ (splitExt name).2 := by
      unfold cleanName
      simp only [if_true, if_neg hne']
    have hfix := pipelineBase_fix _ h2 h3 h4
    have hsplit : splitExt (pipelineBase (splitExt name).1 ++ (splitExt name).2) =
        (pipelineBase (splitExt name).1, (splitExt name).2) := by
      rcases splitExt_ext_shape name with hsh | ⟨e, hsh, he⟩
      · rw [hsh]
        rw [show pipelineBase (splitExt name).1 ++ ([] : List Char) =
          pipelineBase (splitExt name).1 by simp]
        exact splitExt_no_dot _ (hdot rfl hsh)
      · rw [hsh]
        exact splitExt_of_ext _ _ hne' he
    rw [h0]
    unfold cleanName
    simp only [if_true]
    rw [hsplit]
    simp only [hfix, if_neg hne']

/-- C1 amended witness at a real icon file name: `"Amazon-EC2_48.svg"` cleans
to `"EC2.svg"`, and the amended theorem applies, so cleaning twice equals
cleaning once. -/
theorem c1_cleanName_idem_amended_witness :
    cleanName (cleanName "Amazon-EC2_48.svg".toList true) true =
      cleanName "Amazon-EC2_48.svg".toList true :=
  c1_cleanName_idem_amended "Amazon-EC2_48.svg".toList true
    (fun _ => by decide) (fun _ h => absurd h (by decide)) (by decide) (by decide) (by decide)

/-! ### Claim C2 -/

/-- C2: the non-destructive fallback is broken for file names.  When the whole
base consists of stripped tokens (here `"AWS"`), the fallback sets the base to
the full original name and then re-appends the extension, returning
`"AWS.svg.svg"` instead of the original `"AWS.svg"`.  This theorem evaluates
the code at the failing input. -/
theorem c2_fallback_doubles_ext :
    cleanName "AWS.svg".toList true = "AWS.svg.svg".toList ∧
      cleanName "AWS.svg".toList true ≠ "AWS.svg".toList := by
  refine ⟨by decide, by decide⟩

/-! ### Association-map lemmas for the alias resolver -/

theorem alookup_append (k : List Char) (m l : List (List Char × List Char)) :
    alookup k (m ++ l) =
      (match alookup k m with
       | some v => some v
       | none => alookup k l) := by
  induction m with
  | nil => simp [alookup]
  | cons p ps ih =>
    by_cases hp : p.1 = k
    · simp [alookup, hp]
    · simp only [List.cons_append, alookup, hp, if_false]
      exact ih

theorem alookup_none_iff (k : List Char) (m : List (List Char × List Char)) :
    alookup k m = none ↔ k ∉ m.map Prod.fst := by
  induction m with
  | nil => simp [alookup]
  | cons p ps ih =>
    by_cases hp : p.1 = k
    · simp [alookup, hp]
    · simp only [alookup, hp, if_false, List.map_cons, List.mem_cons]
      rw [ih]
      constructor
      · intro h hk
        rcases hk with hk | hk
        · exact hp hk.symm
        · exact h hk
      · intro h hk
        exact h (Or.inr hk)

theorem alookup_mapSet_self (m : List (List Char × List Char)) (k v : List Char) :
    alookup k (mapSet m k v) = some v := by
  unfold mapSet
  by_cases hk : (alookup k m).isSome = true
  · simp only [hk, if_true]
    induction m with
    | nil => simp [alookup] at hk
    | cons p ps ih =>
      by_cases hp : p.1 = k
      · simp [alookup, hp]
      · simp only [List.map_cons, hp, if_false]
        simp only [alookup, hp, if_false] at hk ⊢
        exact ih hk
  · simp only [hk, if_false, Bool.false_eq_true]
    rw [alookup_append]
    rw [show alookup k m = none from by
      cases ho : alookup k m
      · rfl
      · rw [ho] at hk; simp at hk]
    simp [alookup]

theorem alookup_mapSet_other (m : List (List Char × List Char)) (k v k' : List Char)
    (h : k' ≠ k) : alookup k' (mapSet m k v) = alookup k' m := by
  unfold mapSet
  by_cases hk : (alookup k m).isSome = true
  · simp only [hk, if_true]
    induction m with
    | nil => simp
    | cons p ps ih =>
      by_cases hp : p.1 = k
      · simp only [List.map_cons, hp, if_true]
        have hp' : ¬ (k, v).1 = k' := fun hc => h (hc.symm)
        have hp'' : ¬ p.1 = k' := by rw [hp]; exact fun hc => h hc.symm
        simp only [alookup, hp', hp'', if_false]
        simp only [alookup, hp, if_true] at hk
        by_cases hps : (alookup k ps).isSome = true
        · exact ih hps
        · -- the key occurs only at the head; the mapped tail still agrees
          clear ih
          clear hk
          induction ps with
          | nil => simp
          | cons q qs ihq =>
            by_cases hq : q.1 = k
            · simp only [alookup, hq, Option.isSome_some, if_true] at hps
              simp at hps
            · simp only [List.map_cons, hq, if_false, alookup]
              by_cases hq' : q.1 = k'
              · simp [hq']
              · simp only [hq', if_false]
                exact ihq (by simpa [alookup, hq] using hps)
      · simp only [List.map_cons, hp, if_false]
        by_cases hp' : p.1 = k'
        · simp [alookup, hp']
        · simp only [alookup, hp', if_false]
          simp only [alookup, hp, if_false] at hk
          exact ih hk
  · simp only [hk, if_false, Bool.false_eq_true]
    rw [alookup_append]
    have : alookup k' [(k, v)] = none := by
      simp [alookup]
      exact fun hc => absurd hc.symm h
    cases ho : alookup k' m
    · simp [ho, this]
    · simp [ho]

theorem mapSet_keys_nodup (m : List (List Char × List Char)) (k v : List Char)
    (h : (m.map Prod.fst).Nodup) : ((mapSet m k v).map Prod.fst).Nodup := by
  unfold mapSet
  by_cases hk : (alookup k m).isSome = true
  · simp only [hk, if_true]
    have hkeys : (m.map (fun p => if p.1 = k then (k, v) else p)).map Prod.fst =
        m.map Prod.fst := by
      rw [List.map_map]
      apply List.map_congr_left
      intro p _
      by_cases hp : p.1 = k
      · simp [hp]
      · simp [hp]
    rw [hkeys]
    exact h
  · simp only [hk, if_false, Bool.false_eq_true]
    rw [List.map_append]
    rw [List.nodup_append]
    refine ⟨h, by simp, ?_⟩
    intro a ha hb
    simp only [List.map_cons, List.map_nil, List.mem_singleton] at hb
    subst hb
    have hnone : alookup a m = none := by
      cases ho : alookup a m
      · rfl
      · rw [ho] at hk; simp at hk
    exact (alookup_none_iff a m).mp hnone ha

theorem buildCats_keys_nodup (pfx : List Char) (entries : List (List Char)) :
    ((buildCats pfx entries).map Prod.fst).Nodup := by
  unfold buildCats
  have main : ∀ (es : List (List Char)) (m : List (List Char × List Char)),
      (m.map Prod.fst).Nodup →
      ((es.foldl (fun m e => if startsL pfx e = true then
        mapSet m (slugL (e.drop pfx.length)) e else m) m).map Prod.fst).Nodup := by
    intro es
    induction es with
    | nil => intro m hm; exact hm
    | cons e es' ih =>
      intro m hm
      simp only [List.foldl_cons]
      apply ih
      by_cases he : startsL pfx e = true
      · simp only [he, if_true]
        exact mapSet_keys_nodup m _ e hm
      · simp only [he, if_false, Bool.false_eq_true]
        exact hm
  exact main entries [] (by simp)

/-! ### Claims C4 and C5: alias resolution -/

theorem autoAlias_eq_fold (archCats resCats : List (List Char × List Char)) :
    autoAlias archCats resCats = (archCats.map Prod.fst).foldl (autoStep resCats) [] := rfl

theorem autoStep_other (resCats : List (List Char × List Char))
    (acc : List (List Char × List Char)) (k k' : List Char) (h : k' ≠ k) :
    alookup k' (autoStep resCats acc k) = alookup k' acc := by
  unfold autoStep
  by_cases hres : (alookup k resCats).isSome = true
  · simp [hres]
  · simp only [hres, if_false, Bool.false_eq_true]
    cases hfind : (resCats.map Prod.fst).find? (fun x => containsL k x || containsL x k) with
    | none => rfl
    | some hit =>
      by_cases hhit : hit = []
      · simp [hhit]
      · simp only [hhit, if_false]
        exact alookup_mapSet_other acc k hit k' h

theorem autoFold_not_mem (resCats : List (List Char × List Char)) (k : List Char) :
    ∀ (ks : List (List Char)) (acc : List (List Char × List Char)), k ∉ ks →
      alookup k (ks.foldl (autoStep resCats) acc) = alookup k acc := by
  intro ks
  induction ks with
  | nil => intro acc _; rfl
  | cons k2 ks' ih =>
    intro acc hk
    simp only [List.mem_cons, not_or] at hk
    simp only [List.foldl_cons]
    rw [ih _ hk.2]
    exact autoStep_other resCats acc k2 k hk.1

/-- C5 counterexample: with architecture entry `Arch_X` and resource entry
`Res_` (whose slug is the empty string), the empty resource slug is the first
one related to `x` by substring containment (`"x".includes("")` is true), yet
`if (hit)` treats the empty string as falsy and records nothing — the claim
says the first such slug is recorded. -/
theorem c5_autoAlias_cex :
    alookup "x".toList (autoAlias (buildCats archMark ["Arch_X".toList])
      (buildCats resMark ["Res_".toList])) = none ∧
    ((buildCats resMark ["Res_".toList]).map Prod.fst).find?
      (fun x => containsL "x".toList x || containsL x "x".toList) = some [] ∧
    alookup "x".toList (buildCats resMark ["Res_".toList]) = none := by
  refine ⟨by decide, by decide, by decide⟩

/-- C5 (amended): for every architecture slug absent from the resource slug
mapping, the resolver records the first resource slug (in enumeration order)
related by substring containment provided that slug is nonempty, and records
nothing when no such slug exists or the first such slug is the empty string
(which the truthiness guard `if (hit)` drops). -/
theorem c5_autoAlias_amended (archEs resEs : List (List Char)) (k : List Char)
    (hk : k ∈ (buildCats archMark archEs).map Prod.fst)
    (habs : alookup k (buildCats resMark resEs) = none) :
    alookup k (autoAlias (buildCats archMark archEs) (buildCats resMark resEs)) =
      (match ((buildCats resMark resEs).map Prod.fst).find?
          (fun x => containsL k x || containsL x k) with
       | some hit => if hit = [] then none else some hit
       | none => none) := by
  rw [autoAlias_eq_fold]
  have hnodup := buildCats_keys_nodup archMark archEs
  set R := buildCats resMark resEs
  set ks := (buildCats archMark archEs).map Prod.fst
  clear_value ks R
  have main : ∀ (ks : List (List Char)) (acc : List (List Char × List Char)),
      ks.Nodup → k ∈ ks → alookup k acc = none →
      alookup k (ks.foldl (autoStep R) acc) =
        (match (R.map Prod.fst).find? (fun x => containsL k x || containsL x k) with
         | some hit => if hit = [] then none else some hit
         | none => none) := by
    intro ks
    induction ks with
    | nil => intro acc _ hk2 _; simp at hk2
    | cons k2 ks' ih =>
      intro acc hnd hk2 hacc
      simp only [List.foldl_cons]
      rcases List.mem_cons.mp hk2 with rfl | hk3
      · have hnotin : k ∉ ks' := (List.nodup_cons.mp hnd).1
        rw [autoFold_not_mem R k ks' _ hnotin]
        unfold autoStep
        rw [habs]
        simp only [Option.isSome_none, Bool.false_eq_true, if_false]
        cases hfind : (R.map Prod.fst).find? (fun x => containsL k x || containsL x k) with
        | none => exact hacc
        | some hit =>
          by_cases hhit : hit = []
          · simp only [hhit, if_true]
            simpa [hhit] using hacc
          · simp only [hhit, if_false]
            exact alookup_mapSet_self acc k hit
      · refine ih _ (List.nodup_cons.mp hnd).2 hk3 ?_
        have hne : k ≠ k2 := by
          intro hc
          subst hc
          exact (List.nodup_cons.mp hnd).1 hk3
        rw [autoStep_other R acc k2 k hne]
        exact hacc
  exact main ks [] hnodup hk rfl

/-- C5 amended witness: arch slug `iot` (from `Arch_IoT`) is absent from the
resource map built from `Res_Riot`; the first related resource slug is the
nonempty `riot`, and the resolver records exactly it. -/
theorem c5_autoAlias_amended_witness :
    alookup "iot".toList (autoAlias (buildCats archMark ["Arch_IoT".toList])
      (buildCats resMark ["Res_Riot".toList])) =
      (match ((buildCats resMark ["Res_Riot".toList]).map Prod.fst).find?
          (fun x => containsL "iot".toList x || containsL x "iot".toList) with
       | some hit => if hit = [] then none else some hit
       | none => none) :=
  c5_autoAlias_amended ["Arch_IoT".toList] ["Res_Riot".toList] "iot".toList
    (by decide) (by decide)

/-- C4: a manual override always wins.  If a slug has an inferred alias and an
entry in the manual table, the overlaid alias map returns the manual target. -/
theorem c4_manual_alias_wins (archCats resCats : List (List Char × List Char))
    (k w v : List Char)
    (hauto : alookup k (autoAlias archCats resCats) = some w)
    (hman : alookup k manualAlias = some v) :
    alookup k (aliasMap archCats resCats) = some v := by
  have hexp : aliasMap archCats resCats =
      mapSet (mapSet (autoAlias archCats resCats)
        "appintegration".toList "applicationintegration".toList)
        "iot".toList "internetofthings".toList := rfl
  rw [hexp]
  simp only [manualAlias, alookup] at hman
  by_cases h1 : "appintegration".toList = k
  · subst h1
    rw [if_pos rfl] at hman
    rw [alookup_mapSet_other _ _ _ _ (by decide)]
    rw [alookup_mapSet_self]
    exact hman
  · rw [if_neg h1] at hman
    by_cases h2 : "iot".toList = k
    · subst h2
      rw [if_pos rfl] at hman
      rw [alookup_mapSet_self]
      exact hman
    · rw [if_neg h2] at hman
      simp at hman

/-- C4 witness: `iot` has the inferred alias `riot` and the manual target
`internetofthings`; the final map returns the manual target. -/
theorem c4_manual_alias_wins_witness :
    alookup "iot".toList (aliasMap (buildCats archMark ["Arch_IoT".toList])
      (buildCats resMark ["Res_Riot".toList])) = some "internetofthings".toList :=
  c4_manual_alias_wins (buildCats archMark ["Arch_IoT".toList])
    (buildCats resMark ["Res_Riot".toList]) "iot".toList "riot".toList
    "internetofthings".toList (by decide) (by decide)


/-! ### Worker-pool fold lemmas (claims C6 and C8) -/

theorem runJobs_cons (dry : Bool) (j : List Char × List Char)
    (js : List (List Char × List Char)) (st : MSum × List (List Char × List Char)) :
    runJobs dry (j :: js) st = runJobs dry js (jobStep dry st j) := rfl

theorem jobStep_dry (st : MSum × List (List Char × List Char)) (j : List Char × List Char) :
    jobStep true st j =
      (⟨st.1.copied + 1, st.1.skipped, st.1.merged, st.1.archOnly, st.1.unmatched⟩, st.2) := by
  simp [jobStep]

theorem jobStep_hit (s : MSum) (m : List (List Char × List Char))
    (j : List Char × List Char) (w : List Char) (halk : alookup j.2 m = some w) :
    jobStep false (s, m) j =
      (⟨s.copied, s.skipped + 1, s.merged, s.archOnly, s.unmatched⟩, m) := by
  simp [jobStep, halk]

theorem jobStep_miss (s : MSum) (m : List (List Char × List Char))
    (j : List Char × List Char) (halk : alookup j.2 m = none) :
    jobStep false (s, m) j =
      (⟨s.copied + 1, s.skipped, s.merged, s.archOnly, s.unmatched⟩, (j.2, j.1) :: m) := by
  simp [jobStep, halk]

theorem runJobs_dry (jobs : List (List Char × List Char)) :
    ∀ (s : MSum) (m : List (List Char × List Char)),
      runJobs true jobs (s, m) =
        (⟨s.copied + jobs.length, s.skipped, s.merged, s.archOnly, s.unmatched⟩, m) := by
  induction jobs with
  | nil =>
    intro s m
    simp only [runJobs, List.foldl_nil, List.length_nil, Nat.add_zero]
  | cons j js ih =>
    intro s m
    rw [runJobs_cons, jobStep_dry]
    rw [ih]
    have harith : s.copied + 1 + js.length = s.copied + (j :: js).length := by
      simp only [List.length_cons]
      omega
    rw [harith]

theorem runJobs_live_stats (jobs : List (List Char × List Char)) :
    ∀ (s : MSum) (m : List (List Char × List Char)),
      (runJobs false jobs (s, m)).1.copied + (runJobs false jobs (s, m)).1.skipped =
        s.copied + s.skipped + jobs.length ∧
      (runJobs false jobs (s, m)).1.merged = s.merged ∧
      (runJobs false jobs (s, m)).1.archOnly = s.archOnly ∧
      (runJobs false jobs (s, m)).1.unmatched = s.unmatched := by
  induction jobs with
  | nil => intro s m; simp [runJobs]
  | cons j js ih =>
    intro s m
    cases halk : alookup j.2 m with
    | some w =>
      rw [runJobs_cons, jobStep_hit s m j w halk]
      have h := ih ⟨s.copied, s.skipped + 1, s.merged, s.archOnly, s.unmatched⟩ m
      refine ⟨?_, h.2⟩
      rw [h.1]
      simp only [List.length_cons]
      omega
    | none =>
      rw [runJobs_cons, jobStep_miss s m j halk]
      have h := ih ⟨s.copied + 1, s.skipped, s.merged, s.archOnly, s.unmatched⟩
        ((j.2, j.1) :: m)
      refine ⟨?_, h.2⟩
      rw [h.1]
      simp only [List.length_cons]
      omega

theorem runJobs_live_preserve (jobs : List (List Char × List Char)) :
    ∀ (s : MSum) (m : List (List Char × List Char)) (k v : List Char),
      alookup k m = some v → alookup k (runJobs false jobs (s, m)).2 = some v := by
  induction jobs with
  | nil => intro s m k v h; exact h
  | cons j js ih =>
    intro s m k v h
    cases halk : alookup j.2 m with
    | some w =>
      rw [runJobs_cons, jobStep_hit s m j w halk]
      exact ih _ m k v h
    | none =>
      rw [runJobs_cons, jobStep_miss s m j halk]
      refine ih _ _ k v ?_
      have hne : ¬ j.2 = k := by
        intro hc
        rw [hc] at halk
        rw [halk] at h
        exact absurd h (by simp)
      simp [alookup, hne, h]

theorem runJobs_live_isSome (jobs : List (List Char × List Char))
    (s : MSum) (m : List (List Char × List Char)) (k : List Char)
    (h : (alookup k m).isSome = true) :
    (alookup k (runJobs false jobs (s, m)).2).isSome = true := by
  cases ho : alookup k m with
  | none => rw [ho] at h; simp at h
  | some v =>
    rw [runJobs_live_preserve jobs s m k v ho]
    rfl

theorem runJobs_live_done (jobs : List (List Char × List Char)) :
    ∀ (s : MSum) (m : List (List Char × List Char)),
      ∀ j ∈ jobs, (alookup j.2 (runJobs false jobs (s, m)).2).isSome = true := by
  induction jobs with
  | nil => intro s m j hj; simp at hj
  | cons j0 js ih =>
    intro s m j hj
    rcases List.mem_cons.mp hj with rfl | hj2
    · cases halk : alookup j.2 m with
      | some w =>
        rw [runJobs_cons, jobStep_hit s m j w halk]
        exact runJobs_live_isSome js _ m j.2 (by simp [halk])
      | none =>
        rw [runJobs_cons, jobStep_miss s m j halk]
        exact runJobs_live_isSome js _ _ j.2 (by simp [alookup])
    · cases halk : alookup j0.2 m with
      | some w =>
        rw [runJobs_cons, jobStep_hit s m j0 w halk]
        exact ih _ m j hj2
      | none =>
        rw [runJobs_cons, jobStep_miss s m j0 halk]
        exact ih _ _ j hj2

theorem runJobs_live_length (jobs : List (List Char × List Char)) :
    ∀ (s : MSum) (m : List (List Char × List Char)),
      (runJobs false jobs (s, m)).2.length + s.copied =
        m.length + (runJobs false jobs (s, m)).1.copied := by
  induction jobs with
  | nil => intro s m; simp [runJobs]
  | cons j js ih =>
    intro s m
    cases halk : alookup j.2 m with
    | some w =>
      rw [runJobs_cons, jobStep_hit s m j w halk]
      exact ih _ m
    | none =>
      rw [runJobs_cons, jobStep_miss s m j halk]
      have h := ih ⟨s.copied + 1, s.skipped, s.merged, s.archOnly, s.unmatched⟩
        ((j.2, j.1) :: m)
      simp only [List.length_cons] at h ⊢
      omega

theorem runJobs_live_domain (jobs : List (List Char × List Char)) :
    ∀ (s : MSum) (m : List (List Char × List Char)) (k : List Char),
      (alookup k (runJobs false jobs (s, m)).2).isSome = true ↔
        k ∈ jobs.map Prod.snd ∨ (alookup k m).isSome = true := by
  induction jobs with
  | nil => intro s m k; simp [runJobs]
  | cons j js ih =>
    intro s m k
    cases halk : alookup j.2 m with
    | some w =>
      rw [runJobs_cons, jobStep_hit s m j w halk]
      rw [ih _ m k]
      by_cases hk : k = j.2
      · subst hk
        simp [halk]
      · simp only [List.map_cons, List.mem_cons]
        constructor
        · intro h2
          rcases h2 with h2 | h2
          · exact Or.inl (Or.inr h2)
          · exact Or.inr h2
        · intro h2
          rcases h2 with (h2 | h2) | h2
          · exact absurd h2 hk
          · exact Or.inl h2
          · exact Or.inr h2
    | none =>
      rw [runJobs_cons, jobStep_miss s m j halk]
      rw [ih _ _ k]
      by_cases hk : k = j.2
      · subst hk
        simp [alookup]
      · have hal : alookup k ((j.2, j.1) :: m) = alookup k m := by
          simp only [alookup]
          rw [if_neg (fun hc => hk hc.symm)]
        rw [hal]
        simp only [List.map_cons, List.mem_cons]
        constructor
        · intro h2
          rcases h2 with h2 | h2
          · exact Or.inl (Or.inr h2)
          · exact Or.inr h2
        · intro h2
          rcases h2 with (h2 | h2) | h2
          · exact absurd h2 hk
          · exact Or.inl h2
          · exact Or.inr h2

theorem runJobs_live_fresh (jobs : List (List Char × List Char)) :
    ∀ (s : MSum) (m : List (List Char × List Char)),
      (jobs.map Prod.snd).Nodup → (∀ j ∈ jobs, alookup j.2 m = none) →
      (runJobs false jobs (s, m)).1 =
        ⟨s.copied + jobs.length, s.skipped, s.merged, s.archOnly, s.unmatched⟩ := by
  induction jobs with
  | nil =>
    intro s m _ _
    show s = _
    simp only [List.length_nil, Nat.add_zero]
  | cons j js ih =>
    intro s m hnd hfr
    have halk : alookup j.2 m = none := hfr j (by simp)
    rw [runJobs_cons, jobStep_miss s m j halk]
    have hnotin : j.2 ∉ js.map Prod.snd := by
      simp only [List.map_cons, List.nodup_cons] at hnd
      exact hnd.1
    have hnd' : (js.map Prod.snd).Nodup := by
      simp only [List.map_cons, List.nodup_cons] at hnd
      exact hnd.2
    rw [ih _ _ hnd' ?_]
    · simp only [List.length_cons, MSum.mk.injEq, and_true]
      omega
    · intro j' hj'
      have hne : ¬ ((j.2, j.1) : List Char × List Char).1 = j'.2 := by
        intro hc
        apply hnotin
        have hc' : j.2 = j'.2 := hc
        rw [hc']
        exact List.mem_map_of_mem Prod.snd hj'
      simp only [alookup, hne, if_false]
      exact hfr j' (by simp [hj'])

/-! ### Claim C8 -/

/-- C8: collision handling in the worker loop.  For a run over any job list
against any destination state: every job is processed and accounted
(`copied + skipped` grows by exactly the number of jobs, so a collision is
never fatal); a pre-existing destination entry is never overwritten (exclusive
copy fails instead, and the failure lands in `skipped` by the count equation);
after the run every job's destination exists; and the destination gains
exactly `copied` new entries, so `copied` counts precisely the successful
copies. -/
theorem c8_collision_skip (jobs : List (List Char × List Char)) (s : MSum)
    (m : List (List Char × List Char)) :
    ((runJobs false jobs (s, m)).1.copied + (runJobs false jobs (s, m)).1.skipped =
      s.copied + s.skipped + jobs.length) ∧
    (∀ k v, alookup k m = some v → alookup k (runJobs false jobs (s, m)).2 = some v) ∧
    (∀ j ∈ jobs, (alookup j.2 (runJobs false jobs (s, m)).2).isSome = true) ∧
    ((runJobs false jobs (s, m)).2.length + s.copied =
      m.length + (runJobs false jobs (s, m)).1.copied) :=
  ⟨(runJobs_live_stats jobs s m).1,
   fun k v h => runJobs_live_preserve jobs s m k v h,
   fun j hj => runJobs_live_done jobs s m j hj,
   runJobs_live_length jobs s m⟩

/-- C8 witness: two jobs share the destination `D/x.svg`, which also already
holds content `old`; after the run the pre-existing content is untouched. -/
theorem c8_collision_skip_witness :
    alookup "D/x.svg".toList (runJobs false
      [("a/x.svg".toList, "D/x.svg".toList), ("r/x.svg".toList, "D/x.svg".toList)]
      (initSum, [("D/x.svg".toList, "old".toList)])).2 = some "old".toList :=
  (c8_collision_skip
    [("a/x.svg".toList, "D/x.svg".toList), ("r/x.svg".toList, "D/x.svg".toList)]
    initSum [("D/x.svg".toList, "old".toList)]).2.1
    "D/x.svg".toList "old".toList (by decide)

/-! ### Merge-loop step lemmas and claim C6 -/

theorem ensureDir_files (d : List Char) (fst : FSt) :
    (ensureDir d fst).files = fst.files := by
  unfold ensureDir
  by_cases h : fst.dirs.contains d = true
  · rw [if_pos h]
  · rw [if_neg h]

theorem ensureDir_dirs_congr (d : List Char) (fst1 fst2 : FSt)
    (h : fst1.dirs = fst2.dirs) :
    (ensureDir d fst1).dirs = (ensureDir d fst2).dirs := by
  unfold ensureDir
  rw [h]
  by_cases hc : fst2.dirs.contains d = true
  · rw [if_pos hc, if_pos hc]
    exact h
  · rw [if_neg hc, if_neg hc]

theorem mergeCat_general (cfg : MCfg) (dry : Bool) (s : MSum) (fst : FSt)
    (c : Cat) (hn : c.name = generalName) :
    mergeCat cfg dry (s, fst) c =
      (⟨s.copied, s.skipped, s.merged, s.archOnly + 1, s.unmatched⟩,
       ensureDir (joinP cfg.dest "General-Icons-Dark".toList)
         (ensureDir (joinP cfg.dest "General-Icons-Light".toList) fst)) := by
  unfold mergeCat
  simp [hn]

theorem mergeCat_dry_some (cfg : MCfg) (s : MSum) (fst : FSt)
    (c : Cat) (r : List Char × List (List Char)) (hn : ¬ c.name = generalName)
    (hres : c.res = some r) :
    mergeCat cfg true (s, fst) c =
      (⟨s.copied + (catJobs cfg c).length, s.skipped, s.merged + 1,
        s.archOnly, s.unmatched⟩,
       ⟨fst.files, (ensureDir (joinP cfg.dest c.name) fst).dirs⟩) := by
  unfold mergeCat
  simp only [hn, if_false, hres]
  rw [ensureDir_files, runJobs_dry]

theorem mergeCat_dry_none (cfg : MCfg) (s : MSum) (fst : FSt)
    (c : Cat) (hn : ¬ c.name = generalName) (hres : c.res = none) :
    mergeCat cfg true (s, fst) c =
      (⟨s.copied + (catJobs cfg c).length, s.skipped, s.merged,
        s.archOnly + 1, s.unmatched ++ [c.name]⟩,
       ⟨fst.files, (ensureDir (joinP cfg.dest c.name) fst).dirs⟩) := by
  unfold mergeCat
  simp only [hn, if_false, hres]
  rw [ensureDir_files, runJobs_dry]

theorem mergeCat_live_some (cfg : MCfg) (s : MSum) (fst : FSt)
    (c : Cat) (r : List Char × List (List Char)) (hn : ¬ c.name = generalName)
    (hres : c.res = some r) :
    mergeCat cfg false (s, fst) c =
      (⟨(runJobs false (catJobs cfg c) (s, fst.files)).1.copied,
        (runJobs false (catJobs cfg c) (s, fst.files)).1.skipped,
        (runJobs false (catJobs cfg c) (s, fst.files)).1.merged + 1,
        (runJobs false (catJobs cfg c) (s, fst.files)).1.archOnly,
        (runJobs false (catJobs cfg c) (s, fst.files)).1.unmatched⟩,
       ⟨(runJobs false (catJobs cfg c) (s, fst.files)).2,
        (ensureDir (joinP cfg.dest c.name) fst).dirs⟩) := by
  unfold mergeCat
  simp only [hn, if_false, hres]
  rw [ensureDir_files]

theorem mergeCat_live_none (cfg : MCfg) (s : MSum) (fst : FSt)
    (c : Cat) (hn : ¬ c.name = generalName) (hres : c.res = none) :
    mergeCat cfg false (s, fst) c =
      ((runJobs false (catJobs cfg c)
          (⟨s.copied, s.skipped, s.merged, s.archOnly + 1, s.unmatched ++ [c.name]⟩,
           fst.files)).1,
       ⟨(runJobs false (catJobs cfg c)
          (⟨s.copied, s.skipped, s.merged, s.archOnly + 1, s.unmatched ++ [c.name]⟩,
           fst.files)).2,
        (ensureDir (joinP cfg.dest c.name) fst).dirs⟩) := by
  unfold mergeCat
  simp only [hn, if_false, hres]
  rw [ensureDir_files]

theorem mergeCat_dirs_congr (cfg : MCfg) (d l : Bool) (sd sl : MSum)
    (fd fl : FSt) (c : Cat) (h : fd.dirs = fl.dirs) :
    (mergeCat cfg d (sd, fd) c).2.dirs = (mergeCat cfg l (sl, fl) c).2.dirs := by
  unfold mergeCat
  by_cases hn : c.name = generalName
  · simp only [hn, if_true]
    exact ensureDir_dirs_congr _ _ _ (ensureDir_dirs_congr _ _ _ h)
  · simp only [hn, if_false]
    cases hres : c.res with
    | some r =>
      simp only [hres]
      exact ensureDir_dirs_congr _ _ _ h
    | none =>
      simp only [hres]
      exact ensureDir_dirs_congr _ _ _ h

theorem mergeFold_dry_files (cfg : MCfg) :
    ∀ (cats : List Cat) (s : MSum) (fst : FSt),
      (cats.foldl (mergeCat cfg true) (s, fst)).2.files = fst.files := by
  intro cats
  induction cats with
  | nil => intro s fst; rfl
  | cons c cats' ih =>
    intro s fst
    rw [List.foldl_cons]
    by_cases hn : c.name = generalName
    · rw [mergeCat_general cfg true s fst c hn]
      rw [ih]
      rw [ensureDir_files, ensureDir_files]
    · cases hres : c.res with
      | some r =>
        rw [mergeCat_dry_some cfg s fst c r hn hres]
        exact ih _ _
      | none =>
        rw [mergeCat_dry_none cfg s fst c hn hres]
        exact ih _ _

theorem mergeFold_dirs (cfg : MCfg) :
    ∀ (cats : List Cat) (d l : Bool) (sd sl : MSum) (fd fl : FSt),
      fd.dirs = fl.dirs →
      (cats.foldl (mergeCat cfg d) (sd, fd)).2.dirs =
        (cats.foldl (mergeCat cfg l) (sl, fl)).2.dirs := by
  intro cats
  induction cats with
  | nil => intro d l sd sl fd fl h; exact h
  | cons c cats' ih =>
    intro d l sd sl fd fl h
    rw [List.foldl_cons, List.foldl_cons]
    have hstep := mergeCat_dirs_congr cfg d l sd sl fd fl c h
    have h1 : mergeCat cfg d (sd, fd) c =
        ((mergeCat cfg d (sd, fd) c).1, (mergeCat cfg d (sd, fd) c).2) := rfl
    have h2 : mergeCat cfg l (sl, fl) c =
        ((mergeCat cfg l (sl, fl) c).1, (mergeCat cfg l (sl, fl) c).2) := rfl
    rw [h1, h2]
    exact ih d l _ _ _ _ hstep

theorem mergeFold_rel (cfg : MCfg) :
    ∀ (cats : List Cat) (sd sl : MSum) (fd fl : FSt),
      sd.merged = sl.merged → sd.archOnly = sl.archOnly → sd.unmatched = sl.unmatched →
      sd.copied = sl.copied + sl.skipped → sd.skipped = 0 →
      (cats.foldl (mergeCat cfg true) (sd, fd)).1.merged =
        (cats.foldl (mergeCat cfg false) (sl, fl)).1.merged ∧
      (cats.foldl (mergeCat cfg true) (sd, fd)).1.archOnly =
        (cats.foldl (mergeCat cfg false) (sl, fl)).1.archOnly ∧
      (cats.foldl (mergeCat cfg true) (sd, fd)).1.unmatched =
        (cats.foldl (mergeCat cfg false) (sl, fl)).1.unmatched ∧
      (cats.foldl (mergeCat cfg true) (sd, fd)).1.copied =
        (cats.foldl (mergeCat cfg false) (sl, fl)).1.copied +
          (cats.foldl (mergeCat cfg false) (sl, fl)).1.skipped ∧
      (cats.foldl (mergeCat cfg true) (sd, fd)).1.skipped = 0 := by
  intro cats
  induction cats with
  | nil =>
    intro sd sl fd fl h1 h2 h3 h4 h5
    exact ⟨h1, h2, h3, h4, h5⟩
  | cons c cats' ih =>
    intro sd sl fd fl h1 h2 h3 h4 h5
    rw [List.foldl_cons, List.foldl_cons]
    by_cases hn : c.name = generalName
    · rw [mergeCat_general cfg true sd fd c hn, mergeCat_general cfg false sl fl c hn]
      exact ih _ _ _ _ h1 (by simp [h2]) h3 h4 h5
    · cases hres : c.res with
      | some r =>
        rw [mergeCat_dry_some cfg sd fd c r hn hres,
          mergeCat_live_some cfg sl fl c r hn hres]
        obtain ⟨q1, q2, q3, q4⟩ := runJobs_live_stats (catJobs cfg c) sl fl.files
        refine ih _ _ _ _ ?_ ?_ ?_ ?_ ?_
        · dsimp only
          simp only [q2, h1]
        · dsimp only
          simp only [q3, h2]
        · dsimp only
          simp only [q4, h3]
        · dsimp only
          omega
        · dsimp only
          exact h5
      | none =>
        rw [mergeCat_dry_none cfg sd fd c hn hres,
          mergeCat_live_none cfg sl fl c hn hres]
        obtain ⟨q1, q2, q3, q4⟩ := runJobs_live_stats (catJobs cfg c)
          ⟨sl.copied, sl.skipped, sl.merged, sl.archOnly + 1, sl.unmatched ++ [c.name]⟩
          fl.files
        dsimp only at q1 q2 q3 q4
        refine ih _ _ _ _ ?_ ?_ ?_ ?_ ?_
        · dsimp only
          simp only [q2, h1]
        · dsimp only
          simp only [q3, h2]
        · dsimp only
          simp only [q4, h3]
        · dsimp only
          omega
        · dsimp only
          exact h5

theorem mergeFold_fresh (cfg : MCfg) :
    ∀ (cats : List Cat) (s : MSum) (fl fd : FSt),
      ((allJobs cfg cats).map Prod.snd).Nodup →
      (∀ j ∈ allJobs cfg cats, alookup j.2 fl.files = none) →
      (cats.foldl (mergeCat cfg false) (s, fl)).1 =
        (cats.foldl (mergeCat cfg true) (s, fd)).1 := by
  intro cats
  induction cats with
  | nil => intro s fl fd _ _; rfl
  | cons c cats' ih =>
    intro s fl fd hnd hfr
    have hsplit : allJobs cfg (c :: cats') =
        (if c.name = generalName then [] else catJobs cfg c) ++ allJobs cfg cats' := rfl
    rw [List.foldl_cons, List.foldl_cons]
    by_cases hn : c.name = generalName
    · rw [mergeCat_general cfg false s fl c hn, mergeCat_general cfg true s fd c hn]
      rw [hsplit] at hnd hfr
      simp only [hn, if_true, List.nil_append] at hnd hfr
      refine ih _ _ _ hnd ?_
      intro j hj
      rw [ensureDir_files, ensureDir_files]
      exact hfr j hj
    · rw [hsplit] at hnd hfr
      simp only [hn, if_false, List.map_append] at hnd hfr
      rw [List.nodup_append] at hnd
      have hjnd : ((catJobs cfg c).map Prod.snd).Nodup := hnd.1
      have hjfr : ∀ j ∈ catJobs cfg c, alookup j.2 fl.files = none := by
        intro j hj
        exact hfr j (by simp [hj])
      have hdisj := hnd.2.2
      cases hres : c.res with
      | some r =>
        rw [mergeCat_live_some cfg s fl c r hn hres, mergeCat_dry_some cfg s fd c r hn hres]
        have hfresh := runJobs_live_fresh (catJobs cfg c) s fl.files hjnd hjfr
        have hnext : ∀ j ∈ allJobs cfg cats',
            alookup j.2 (runJobs false (catJobs cfg c) (s, fl.files)).2 = none := by
          intro j hj
          have hdom := runJobs_live_domain (catJobs cfg c) s fl.files j.2
          have hnot1 : j.2 ∉ (catJobs cfg c).map Prod.snd := by
            intro hin
            exact hdisj hin (List.mem_map_of_mem Prod.snd hj)
          have hnot2 : ¬ (alookup j.2 fl.files).isSome = true := by
            rw [hfr j (by simp [hj])]
            simp
          cases ho : alookup j.2 (runJobs false (catJobs cfg c) (s, fl.files)).2 with
          | none => rfl
          | some v =>
            exfalso
            have : (alookup j.2
                (runJobs false (catJobs cfg c) (s, fl.files)).2).isSome = true := by
              rw [ho]; rfl
            rcases hdom.mp this with hin | hin
            · exact hnot1 hin
            · exact hnot2 hin
        rw [hfresh]
        exact ih _ _ _ hnd.2.1 hnext
      | none =>
        rw [mergeCat_live_none cfg s fl c hn hres, mergeCat_dry_none cfg s fd c hn hres]
        have hfresh := runJobs_live_fresh (catJobs cfg c)
          ⟨s.copied, s.skipped, s.merged, s.archOnly + 1, s.unmatched ++ [c.name]⟩
          fl.files hjnd hjfr
        have hnext : ∀ j ∈ allJobs cfg cats',
            alookup j.2 (runJobs false (catJobs cfg c)
              (⟨s.copied, s.skipped, s.merged, s.archOnly + 1,
                s.unmatched ++ [c.name]⟩, fl.files)).2 = none := by
          intro j hj
          have hdom := runJobs_live_domain (catJobs cfg c)
            ⟨s.copied, s.skipped, s.merged, s.archOnly + 1, s.unmatched ++ [c.name]⟩
            fl.files j.2
          have hnot1 : j.2 ∉ (catJobs cfg c).map Prod.snd := by
            intro hin
            exact hdisj hin (List.mem_map_of_mem Prod.snd hj)
          have hnot2 : ¬ (alookup j.2 fl.files).isSome = true := by
            rw [hfr j (by simp [hj])]
            simp
          cases ho : alookup j.2 (runJobs false (catJobs cfg c)
              (⟨s.copied, s.skipped, s.merged, s.archOnly + 1,
                s.unmatched ++ [c.name]⟩, fl.files)).2 with
          | none => rfl
          | some v =>
            exfalso
            have : (alookup j.2 (runJobs false (catJobs cfg c)
                (⟨s.copied, s.skipped, s.merged, s.archOnly + 1,
                  s.unmatched ++ [c.name]⟩, fl.files)).2).isSome = true := by
              rw [ho]; rfl
            rcases hdom.mp this with hin | hin
            · exact hnot1 hin
            · exact hnot2 hin
        rw [hfresh]
        exact ih _ _ _ hnd.2.1 hnext

theorem runJobs_skipped_mono (jobs : List (List Char × List Char)) :
    ∀ (s : MSum) (m : List (List Char × List Char)),
      s.skipped ≤ (runJobs false jobs (s, m)).1.skipped := by
  induction jobs with
  | nil => intro s m; exact Nat.le_refl _
  | cons j js ih =>
    intro s m
    cases halk : alookup j.2 m with
    | some w =>
      rw [runJobs_cons, jobStep_hit s m j w halk]
      have h := ih ⟨s.copied, s.skipped + 1, s.merged, s.archOnly, s.unmatched⟩ m
      exact Nat.le_trans (Nat.le_succ _) h
    | none =>
      rw [runJobs_cons, jobStep_miss s m j halk]
      exact ih ⟨s.copied + 1, s.skipped, s.merged, s.archOnly, s.unmatched⟩
        ((j.2, j.1) :: m)

theorem runJobs_skipped_eq (jobs : List (List Char × List Char)) :
    ∀ (s : MSum) (m : List (List Char × List Char)),
      (runJobs false jobs (s, m)).1.skipped = s.skipped →
      (jobs.map Prod.snd).Nodup ∧ ∀ j ∈ jobs, alookup j.2 m = none := by
  induction jobs with
  | nil =>
    intro s m _
    exact ⟨List.nodup_nil, fun j hj => absurd hj (List.not_mem_nil j)⟩
  | cons j js ih =>
    intro s m heq
    cases halk : alookup j.2 m with
    | some w =>
      exfalso
      rw [runJobs_cons, jobStep_hit s m j w halk] at heq
      have hm := runJobs_skipped_mono js
        ⟨s.copied, s.skipped + 1, s.merged, s.archOnly, s.unmatched⟩ m
      rw [heq] at hm
      dsimp only at hm
      omega
    | none =>
      rw [runJobs_cons, jobStep_miss s m j halk] at heq
      have h := ih ⟨s.copied + 1, s.skipped, s.merged, s.archOnly, s.unmatched⟩
        ((j.2, j.1) :: m) heq
      have hjs : ∀ j' ∈ js, ¬ j.2 = j'.2 ∧ alookup j'.2 m = none := by
        intro j' hj'
        have h2 := h.2 j' hj'
        simp only [alookup] at h2
        by_cases hc : j.2 = j'.2
        · rw [if_pos hc] at h2
          exact absurd h2 (by simp)
        · rw [if_neg hc] at h2
          exact ⟨hc, h2⟩
      refine ⟨?_, ?_⟩
      · rw [List.map_cons, List.nodup_cons]
        refine ⟨?_, h.1⟩
        intro hin
        rcases List.mem_map.mp hin with ⟨j', hj', hej⟩
        exact (hjs j' hj').1 hej.symm
      · intro j' hj'
        rcases List.mem_cons.mp hj' with rfl | hj2
        · exact halk
        · exact (hjs j' hj2).2

theorem mergeFold_skipped_mono (cfg : MCfg) :
    ∀ (cats : List Cat) (s : MSum) (fl : FSt),
      s.skipped ≤ (cats.foldl (mergeCat cfg false) (s, fl)).1.skipped := by
  intro cats
  induction cats with
  | nil => intro s fl; exact Nat.le_refl _
  | cons c cats' ih =>
    intro s fl
    rw [List.foldl_cons]
    by_cases hn : c.name = generalName
    · rw [mergeCat_general cfg false s fl c hn]
      exact ih ⟨s.copied, s.skipped, s.merged, s.archOnly + 1, s.unmatched⟩
        (ensureDir (joinP cfg.dest "General-Icons-Dark".toList)
          (ensureDir (joinP cfg.dest "General-Icons-Light".toList) fl))
    · cases hres : c.res with
      | some r =>
        rw [mergeCat_live_some cfg s fl c r hn hres]
        have h1 := runJobs_skipped_mono (catJobs cfg c) s fl.files
        have h2 := ih ⟨(runJobs false (catJobs cfg c) (s, fl.files)).1.copied,
          (runJobs false (catJobs cfg c) (s, fl.files)).1.skipped,
          (runJobs false (catJobs cfg c) (s, fl.files)).1.merged + 1,
          (runJobs false (catJobs cfg c) (s, fl.files)).1.archOnly,
          (runJobs false (catJobs cfg c) (s, fl.files)).1.unmatched⟩
          ⟨(runJobs false (catJobs cfg c) (s, fl.files)).2,
           (ensureDir (joinP cfg.dest c.name) fl).dirs⟩
        dsimp only at h2
        exact Nat.le_trans h1 h2
      | none =>
        rw [mergeCat_live_none cfg s fl c hn hres]
        have h1 := runJobs_skipped_mono (catJobs cfg c)
          ⟨s.copied, s.skipped, s.merged, s.archOnly + 1, s.unmatched ++ [c.name]⟩
          fl.files
        dsimp only at h1
        have h2 := ih (runJobs false (catJobs cfg c)
          (⟨s.copied, s.skipped, s.merged, s.archOnly + 1, s.unmatched ++ [c.name]⟩,
           fl.files)).1
          ⟨(runJobs false (catJobs cfg c)
            (⟨s.copied, s.skipped, s.merged, s.archOnly + 1, s.unmatched ++ [c.name]⟩,
             fl.files)).2,
           (ensureDir (joinP cfg.dest c.name) fl).dirs⟩
        exact Nat.le_trans h1 h2

theorem mergeFold_skipped_eq (cfg : MCfg) :
    ∀ (cats : List Cat) (s : MSum) (fl : FSt),
      (cats.foldl (mergeCat cfg false) (s, fl)).1.skipped = s.skipped →
      ((allJobs cfg cats).map Prod.snd).Nodup ∧
        ∀ j ∈ allJobs cfg cats, alookup j.2 fl.files = none := by
  intro cats
  induction cats with
  | nil =>
    intro s fl _
    exact ⟨List.nodup_nil, fun j hj => absurd hj (List.not_mem_nil j)⟩
  | cons c cats' ih =>
    intro s fl heq
    have hsplit : allJobs cfg (c :: cats') =
        (if c.name = generalName then [] else catJobs cfg c) ++ allJobs cfg cats' := rfl
    rw [List.foldl_cons] at heq
    by_cases hn : c.name = generalName
    · rw [mergeCat_general cfg false s fl c hn] at heq
      have h := ih _ _ heq
      rw [hsplit]
      simp only [hn, if_true, List.nil_append]
      refine ⟨h.1, ?_⟩
      intro j hj
      have h2 := h.2 j hj
      rw [ensureDir_files, ensureDir_files] at h2
      exact h2
    · cases hres : c.res with
      | some r =>
        rw [mergeCat_live_some cfg s fl c r hn hres] at heq
        have hm1 := runJobs_skipped_mono (catJobs cfg c) s fl.files
        have hm2 := mergeFold_skipped_mono cfg cats'
          ⟨(runJobs false (catJobs cfg c) (s, fl.files)).1.copied,
           (runJobs false (catJobs cfg c) (s, fl.files)).1.skipped,
           (runJobs false (catJobs cfg c) (s, fl.files)).1.merged + 1,
           (runJobs false (catJobs cfg c) (s, fl.files)).1.archOnly,
           (runJobs false (catJobs cfg c) (s, fl.files)).1.unmatched⟩
          ⟨(runJobs false (catJobs cfg c) (s, fl.files)).2,
           (ensureDir (joinP cfg.dest c.name) fl).dirs⟩
        rw [heq] at hm2
        dsimp only at hm2
        have hrj : (runJobs false (catJobs cfg c) (s, fl.files)).1.skipped = s.skipped := by
          omega
        have hjobs := runJobs_skipped_eq (catJobs cfg c) s fl.files hrj
        have hih := ih _ _ (heq.trans hrj.symm)
        have htail : ∀ j ∈ allJobs cfg cats',
            j.2 ∉ (catJobs cfg c).map Prod.snd ∧ alookup j.2 fl.files = none := by
          intro j hj
          have h2 := hih.2 j hj
          dsimp only at h2
          have hdom := runJobs_live_domain (catJobs cfg c) s fl.files j.2
          constructor
          · intro hin
            have hs := hdom.mpr (Or.inl hin)
            rw [h2] at hs
            exact absurd hs (by simp)
          · cases ho : alookup j.2 fl.files with
            | none => rfl
            | some v =>
              have hs := hdom.mpr (Or.inr (by rw [ho]; rfl))
              rw [h2] at hs
              exact absurd hs (by simp)
        rw [hsplit]
        simp only [hn, if_false, List.map_append]
        constructor
        · rw [List.nodup_append]
          refine ⟨hjobs.1, hih.1, ?_⟩
          intro a ha hamem
          rcases List.mem_map.mp hamem with ⟨j, hj, hej⟩
          refine (htail j hj).1 ?_
          rw [hej]
          exact ha
        · intro j hj
          rcases List.mem_append.mp hj with hj1 | hj2
          · exact hjobs.2 j hj1
          · exact (htail j hj2).2
      | none =>
        rw [mergeCat_live_none cfg s fl c hn hres] at heq
        have hm1 := runJobs_skipped_mono (catJobs cfg c)
          ⟨s.copied, s.skipped, s.merged, s.archOnly + 1, s.unmatched ++ [c.name]⟩
          fl.files
        dsimp only at hm1
        have hm2 := mergeFold_skipped_mono cfg cats'
          (runJobs false (catJobs cfg c)
            (⟨s.copied, s.skipped, s.merged, s.archOnly + 1, s.unmatched ++ [c.name]⟩,
             fl.files)).1
          ⟨(runJobs false (catJobs cfg c)
            (⟨s.copied, s.skipped, s.merged, s.archOnly + 1, s.unmatched ++ [c.name]⟩,
             fl.files)).2,
           (ensureDir (joinP cfg.dest c.name) fl).dirs⟩
        rw [heq] at hm2
        have hrj : (runJobs false (catJobs cfg c)
            (⟨s.copied, s.skipped, s.merged, s.archOnly + 1, s.unmatched ++ [c.name]⟩,
             fl.files)).1.skipped = s.skipped := by
          omega
        have hjobs := runJobs_skipped_eq (catJobs cfg c)
          ⟨s.copied, s.skipped, s.merged, s.archOnly + 1, s.unmatched ++ [c.name]⟩
          fl.files hrj
        have hih := ih _ _ (heq.trans hrj.symm)
        have htail : ∀ j ∈ allJobs cfg cats',
            j.2 ∉ (catJobs cfg c).map Prod.snd ∧ alookup j.2 fl.files = none := by
          intro j hj
          have h2 := hih.2 j hj
          dsimp only at h2
          have hdom := runJobs_live_domain (catJobs cfg c)
            ⟨s.copied, s.skipped, s.merged, s.archOnly + 1, s.unmatched ++ [c.name]⟩
            fl.files j.2
          constructor
          · intro hin
            have hs := hdom.mpr (Or.inl hin)
            rw [h2] at hs
            exact absurd hs (by simp)
          · cases ho : alookup j.2 fl.files with
            | none => rfl
            | some v =>
              have hs := hdom.mpr (Or.inr (by rw [ho]; rfl))
              rw [h2] at hs
              exact absurd hs (by simp)
        rw [hsplit]
        simp only [hn, if_false, List.map_append]
        constructor
        · rw [List.nodup_append]
          refine ⟨hjobs.1, hih.1, ?_⟩
          intro a ha hamem
          rcases List.mem_map.mp hamem with ⟨j, hj, hej⟩
          refine (htail j hj).1 ?_
          rw [hej]
          exact ha
        · intro j hj
          rcases List.mem_append.mp hj with hj1 | hj2
          · exact hjobs.2 j hj1
          · exact (htail j hj2).2

/-- C6 counterexample: one category whose architecture and resource trees both
hold a file named `EC2_48.svg`.  Both files map to the same destination, so
the live run on a clean destination copies one and skips one (1 copied,
1 skipped) while the dry run counts every job as copied (2 copied,
0 skipped) — the statistics differ. -/
theorem c6_dry_run_stats_cex :
    (runMerge ⟨"48".toList, ["svg".toList], "A".toList, "R".toList, "D".toList⟩ true
      [⟨"Arch_Compute".toList, ["EC2_48.svg".toList],
        some ("Res_Compute".toList, ["EC2_48.svg".toList])⟩]).1 ≠
    (runMerge ⟨"48".toList, ["svg".toList], "A".toList, "R".toList, "D".toList⟩ false
      [⟨"Arch_Compute".toList, ["EC2_48.svg".toList],
        some ("Res_Compute".toList, ["EC2_48.svg".toList])⟩]).1 := by
  decide

/-- C6 (amended): a dry run agrees with a live run on a clean destination on
the merged, archOnly and unmatched statistics unconditionally; its copied
count equals the live run's copied plus skipped (the dry run counts every job
as copied and can never detect a collision), and its skipped count is zero;
it copies no files, yet it creates exactly the destination directories the
live run creates (the `ensureDir` mkdir calls run even under `--dry-run`);
and the full statistics coincide if and only if the run's copy jobs have
pairwise-distinct destination paths. -/
theorem c6_dry_run_amended (cfg : MCfg) (cats : List Cat) :
    (runMerge cfg true cats).1.merged = (runMerge cfg false cats).1.merged ∧
    (runMerge cfg true cats).1.archOnly = (runMerge cfg false cats).1.archOnly ∧
    (runMerge cfg true cats).1.unmatched = (runMerge cfg false cats).1.unmatched ∧
    (runMerge cfg true cats).1.copied =
      (runMerge cfg false cats).1.copied + (runMerge cfg false cats).1.skipped ∧
    (runMerge cfg true cats).1.skipped = 0 ∧
    (runMerge cfg true cats).2.files = [] ∧
    (runMerge cfg true cats).2.dirs = (runMerge cfg false cats).2.dirs ∧
    ((runMerge cfg true cats).1 = (runMerge cfg false cats).1 ↔
      ((allJobs cfg cats).map Prod.snd).Nodup) := by
  have hrel := mergeFold_rel cfg cats initSum initSum (ensureDir cfg.dest ⟨[], []⟩)
    (ensureDir cfg.dest ⟨[], []⟩) rfl rfl rfl rfl rfl
  refine ⟨hrel.1, hrel.2.1, hrel.2.2.1, hrel.2.2.2.1, hrel.2.2.2.2, ?_, ?_, ?_⟩
  · have h := mergeFold_dry_files cfg cats initSum (ensureDir cfg.dest ⟨[], []⟩)
    rw [ensureDir_files] at h
    exact h
  · exact mergeFold_dirs cfg cats true false initSum initSum
      (ensureDir cfg.dest ⟨[], []⟩) (ensureDir cfg.dest ⟨[], []⟩) rfl
  · constructor
    · intro hst
      have h0 : (runMerge cfg false cats).1.skipped = 0 := by
        rw [← hst]
        exact hrel.2.2.2.2
      exact (mergeFold_skipped_eq cfg cats initSum (ensureDir cfg.dest ⟨[], []⟩) h0).1
    · intro hnd
      refine (mergeFold_fresh cfg cats initSum (ensureDir cfg.dest ⟨[], []⟩)
        (ensureDir cfg.dest ⟨[], []⟩) hnd ?_).symm
      intro j hj
      rw [ensureDir_files]
      rfl

/-- C6 amended witness: with distinct basenames across the two trees the copy
jobs have distinct destinations, and the dry statistics equal the live
statistics exactly. -/
theorem c6_dry_run_amended_witness :
    (runMerge ⟨"48".toList, ["svg".toList], "A".toList, "R".toList, "D".toList⟩ true
      [⟨"Arch_Compute".toList, ["EC2_48.svg".toList],
        some ("Res_Compute".toList, ["RDS_48.svg".toList])⟩]).1 =
    (runMerge ⟨"48".toList, ["svg".toList], "A".toList, "R".toList, "D".toList⟩ false
      [⟨"Arch_Compute".toList, ["EC2_48.svg".toList],
        some ("Res_Compute".toList, ["RDS_48.svg".toList])⟩]).1 :=
  (c6_dry_run_amended ⟨"48".toList, ["svg".toList], "A".toList, "R".toList, "D".toList⟩
    [⟨"Arch_Compute".toList, ["EC2_48.svg".toList],
      some ("Res_Compute".toList, ["RDS_48.svg".toList])⟩]).2.2.2.2.2.2.2.mpr (by decide)

/-! ### Claim C7 -/

/-- C7: `processSvg` rewrites a file iff its first title match has trimmed
content that differs from its cleaned form; a file with no title element and
a file whose trimmed title is already clean are both left unchanged
(`processSvg` returns `none`, and the caller then performs no write). -/
theorem c7_title_rewrite_iff (data : List Char) :
    ((processSvg data).isSome = true ↔
      ∃ m, firstTitleMatch data = some m ∧ cleanTitle (trimWS m.2.1) ≠ trimWS m.2.1) ∧
    (firstTitleMatch data = none → processSvg data = none) ∧
    (∀ m, firstTitleMatch data = some m → cleanTitle (trimWS m.2.1) = trimWS m.2.1 →
      processSvg data = none) := by
  refine ⟨?_, ?_, ?_⟩
  · cases hm : firstTitleMatch data with
    | none => simp [processSvg, hm]
    | some m =>
      simp only [processSvg, hm]
      by_cases he : cleanTitle (trimWS m.2.1) = trimWS m.2.1
      · simp [he]
      · simp [he]
  · intro h
    simp [processSvg, h]
  · intro m hm he
    simp [processSvg, hm, he]

/-- C7 witness at the spec's scenario title: `<title>Amazon-EC2_48</title>`
is rewritten (its cleaned title drops the size suffix but keeps the brand). -/
theorem c7_title_rewrite_iff_witness :
    (processSvg "<title>Amazon-EC2_48</title>".toList).isSome = true :=
  (c7_title_rewrite_iff "<title>Amazon-EC2_48</title>".toList).1.mpr
    ⟨(([] : List Char), "Amazon-EC2_48".toList, ([] : List Char)), by decide, by decide⟩

/-! ### Claim C9 -/

/-- C9: children before parents.  For every subdirectory occurrence in the
walked tree, the trace of `renameSafe` calls splits around the directory's own
rename, and every call made for the directory's contents lies strictly before
it. -/
theorem c9_children_before_parent (root : List (List Char)) (es : List FT)
    (p : List (List Char)) (n : List Char) (ch : List FT)
    (h : (p, n, ch) ∈ occsList root es) :
    ∃ pre post, renList root es = pre ++ (⟨p, n, cleanName n false⟩ : REv) :: post ∧
      ∀ e ∈ renList (p ++ [n]) ch, e ∈ pre := by
  have H : ∀ (N : Nat) (root : List (List Char)) (es : List FT),
      sizeOf es ≤ N → (p, n, ch) ∈ occsList root es →
      ∃ pre post, renList root es = pre ++ (⟨p, n, cleanName n false⟩ : REv) :: post ∧
        ∀ e ∈ renList (p ++ [n]) ch, e ∈ pre := by
    intro N
    induction N with
    | zero =>
      intro root es hsz hmem
      cases es with
      | nil => simp [occsList] at hmem
      | cons e rest =>
        exfalso
        have : 0 < sizeOf (e :: rest) := by
          simp only [List.cons.sizeOf_spec]
          omega
        omega
    | succ N ihN =>
      intro root es hsz hmem
      cases es with
      | nil => simp [occsList] at hmem
      | cons e rest =>
        cases e with
        | file nm =>
          rw [show occsList root (FT.file nm :: rest) = occsList root rest from by
            simp [occsList]] at hmem
          have hszr : sizeOf rest ≤ N := by
            simp only [List.cons.sizeOf_spec, FT.file.sizeOf_spec] at hsz
            omega
          obtain ⟨pre, post, heq, hsub⟩ := ihN root rest hszr hmem
          refine ⟨(⟨root, nm, cleanName nm true⟩ : REv) :: pre, post, ?_, ?_⟩
          · rw [show renList root (FT.file nm :: rest) =
              (⟨root, nm, cleanName nm true⟩ : REv) :: renList root rest from by
                simp [renList]]
            rw [heq]
            rfl
          · intro ev hev
            exact List.mem_cons_of_mem _ (hsub ev hev)
        | dir m mc =>
          have hszc : sizeOf mc ≤ N := by
            simp only [List.cons.sizeOf_spec, FT.dir.sizeOf_spec] at hsz
            omega
          have hszr : sizeOf rest ≤ N := by
            simp only [List.cons.sizeOf_spec, FT.dir.sizeOf_spec] at hsz
            omega
          rw [show occsList root (FT.dir m mc :: rest) =
            (root, m, mc) :: (occsList (root ++ [m]) mc ++ occsList root rest) from by
              simp [occsList]] at hmem
          have hren : renList root (FT.dir m mc :: rest) =
              (renList (root ++ [m]) mc ++ [(⟨root, m, cleanName m false⟩ : REv)]) ++
                renList root rest := by
            simp [renList]
          rcases List.mem_cons.mp hmem with hEq | hmem2
          · obtain ⟨hp, hn, hch⟩ : p = root ∧ n = m ∧ ch = mc := by
              simpa [Prod.ext_iff] using hEq
            subst hp
            subst hn
            subst hch
            refine ⟨renList (p ++ [n]) ch, renList p rest, ?_, fun e he => he⟩
            rw [hren]
            simp
          · rcases List.mem_append.mp hmem2 with hmc | hrest
            · obtain ⟨pre, post, heq, hsub⟩ := ihN (root ++ [m]) mc hszc hmc
              refine ⟨pre, post ++ [(⟨root, m, cleanName m false⟩ : REv)] ++
                renList root rest, ?_, hsub⟩
              rw [hren, heq]
              simp
            · obtain ⟨pre, post, heq, hsub⟩ := ihN root rest hszr hrest
              refine ⟨(renList (root ++ [m]) mc ++
                [(⟨root, m, cleanName m false⟩ : REv)]) ++ pre, post, ?_, ?_⟩
              · rw [hren, heq]
                simp
              · intro e he
                exact List.mem_append_right _ (hsub e he)
  exact H (sizeOf es) root es le_rfl h

/-- C9 witness: in the tree `Arch_X/AWS-a_48.svg`, the file's rename event
occurs strictly before the directory's rename event. -/
theorem c9_children_before_parent_witness :
    ∃ pre post,
      renList [] [FT.dir "Arch_X".toList [FT.file "AWS-a_48.svg".toList]] =
        pre ++ (⟨[], "Arch_X".toList, cleanName "Arch_X".toList false⟩ : REv) :: post ∧
      ∀ e ∈ renList ["Arch_X".toList] [FT.file "AWS-a_48.svg".toList], e ∈ pre :=
  c9_children_before_parent [] [FT.dir "Arch_X".toList [FT.file "AWS-a_48.svg".toList]]
    [] "Arch_X".toList [FT.file "AWS-a_48.svg".toList] (by simp [occsList])

/-! ### Claim C10 -/

/-- C10: a file path whose lowercased extension is in the format allow-list is
accepted by `matchesSize` iff the lowercased basename ends with
`_<size>.<ext>` or some path component equals the size label; in particular a
file with no size suffix is accepted whenever a path component equals the
size label. -/
theorem c10_matchesSize_spec (cfg : MCfg) (fp : List Char)
    (hfmt : cfg.formats.contains
      (((splitExt (afterLastSlash fp)).2.drop 1).map Char.toLower) = true) :
    (matchesSize cfg fp = true ↔
      (endsL ('_' :: cfg.size ++ '.' ::
          ((splitExt (afterLastSlash fp)).2.drop 1).map Char.toLower)
          ((afterLastSlash fp).map Char.toLower) = true ∨
        (splitSlash fp).contains cfg.size = true)) ∧
    (endsL ('_' :: cfg.size ++ '.' ::
        ((splitExt (afterLastSlash fp)).2.drop 1).map Char.toLower)
        ((afterLastSlash fp).map Char.toLower) = false →
      (splitSlash fp).contains cfg.size = true → matchesSize cfg fp = true) := by
  have hcond : (!(cfg.formats.contains
      (((splitExt (afterLastSlash fp)).2.drop 1).map Char.toLower))) = false := by
    rw [hfmt]
    rfl
  constructor
  · unfold matchesSize
    rw [hcond]
    simp only [Bool.false_eq_true, if_false, Bool.or_eq_true]
  · intro hne hcomp
    unfold matchesSize
    rw [hcond]
    simp only [Bool.false_eq_true, if_false, Bool.or_eq_true]
    exact Or.inr hcomp

/-- C10 witness: `A/48/icon.svg` has no `_48` basename suffix but lies under
a directory named `48`, and is accepted. -/
theorem c10_matchesSize_spec_witness :
    matchesSize ⟨"48".toList, ["svg".toList], "A".toList, "R".toList, "D".toList⟩
      "A/48/icon.svg".toList = true :=
  (c10_matchesSize_spec ⟨"48".toList, ["svg".toList], "A".toList, "R".toList, "D".toList⟩
    "A/48/icon.svg".toList (by decide)).2 (by decide) (by decide)

